import Mathlib

set_option maxHeartbeats 1000000

/-!
Verification development for `Test2/process_leaderboard.py`.

The Python program is shallowly embedded here.  Python floats are
idealised as exact rationals (`ℚ`), machine ints as `ℤ`/`ℕ`, Python
dictionaries as insertion-ordered association lists built exclusively
through `dictInsert`, and fallible Python code as `Except Unit`
computations.  `re.\d` is modelled as the ASCII digit class.
-/

deriving instance DecidableEq for Except

namespace Leaderboard

/-- A normalized cell value, mirroring the dynamic values the Python
dicts hold: `None`, `bool`, `int`, `float`, `str`, and the list of
round scores stored under `_countback`. -/
inductive Value where
  | null
  | bool (b : Bool)
  | int (n : ℤ)
  | float (q : ℚ)
  | str (s : String)
  | floatList (l : List ℚ)
  deriving DecidableEq, Inhabited

/-- A normalized record: a Python dict keyed by header name. -/
abbrev Record := List (String × Value)

/-- A raw parsed row: a Python dict from column letter to the raw cell
text (`Optional[str]`). -/
abbrev RawRow := List (String × Option String)

/-- Python `d.get(k)`: first binding for `k`, if any.  Rows built via
`dictInsert` have distinct keys, matching dict semantics. -/
def dictGet {α : Type} (d : List (String × α)) (k : String) : Option α :=
  (d.find? (fun p => p.1 = k)).map (fun p => p.2)

/-- Python `d[k] = v`: replace the value in place if the key exists,
otherwise append the new binding (insertion order preserved). -/
def dictInsert {α : Type} (d : List (String × α)) (k : String) (v : α) :
    List (String × α) :=
  if d.any (fun p => p.1 = k) then
    d.map (fun p => if p.1 = k then (k, v) else p)
  else d ++ [(k, v)]

/-- Keep the first occurrence of every element not in `seen`. -/
def fdedupAux {α : Type} [DecidableEq α] (seen : List α) : List α → List α
  | [] => []
  | x :: xs => if x ∈ seen then fdedupAux seen xs else x :: fdedupAux (x :: seen) xs

/-- Keep the first occurrence of every element (Python dict key order). -/
def fdedup {α : Type} [DecidableEq α] (l : List α) : List α :=
  fdedupAux [] l

/-! ### Kernel-computable rational arithmetic

The Batteries arithmetic on `ℚ` is `@[irreducible]`, which blocks
`decide`-style evaluation of the embedding on concrete inputs.  These
helpers compute the same values through `mkRat`/`Rat.divInt` (proved
equal to the standard operations below) and are used wherever the
embedded program computes with numbers. -/

def qAdd (a b : ℚ) : ℚ := mkRat (a.num * b.den + b.num * a.den) (a.den * b.den)

def qSub (a b : ℚ) : ℚ := qAdd a (-b)

def qMul (a b : ℚ) : ℚ := mkRat (a.num * b.num) (a.den * b.den)

def qDiv (a b : ℚ) : ℚ := Rat.divInt (a.num * b.den) (a.den * b.num)

def qPow (a : ℚ) : ℕ → ℚ
  | 0 => 1
  | n + 1 => qMul (qPow a n) a

def qZpow10 : ℤ → ℚ
  | .ofNat n => qPow 10 n
  | .negSucc n => qDiv 1 (qPow 10 (n + 1))

/-! ### Kernel-computable string primitives

`String.trim`, `String.toLower` and the `String` order are implemented
on byte iterators in core and do not reduce under `decide`; the
embedding uses these character-list equivalents instead. -/

/-- The whitespace characters Python's `str.strip` (ASCII range) and
`int()`/`float()` remove. -/
def isPySpace (c : Char) : Bool :=
  c = ' ' ∨ c = '\t' ∨ c = '\n' ∨ c = '\r' ∨ c = '\x0b' ∨ c = '\x0c'

/-- Python `s.strip()`. -/
def pyStrip (s : String) : String :=
  ⟨((s.data.dropWhile isPySpace).reverse.dropWhile isPySpace).reverse⟩

/-- Case-folded code points of a string (ASCII lowering, the extent of
`re.I` the spend-column patterns need). -/
def lowerStr (s : String) : List ℕ :=
  s.data.map (fun c => if 64 < c.toNat ∧ c.toNat < 91 then c.toNat + 32 else c.toNat)

/-- Python string `<`: lexicographic comparison of code points. -/
def clLt : List Char → List Char → Bool
  | [], [] => false
  | [], _ :: _ => true
  | _ :: _, [] => false
  | a :: as, b :: bs => if a = b then clLt as bs else decide (a.toNat < b.toNat)

def strLt (a b : String) : Bool := clLt a.data b.data

/-! ### Numeric text parsing helpers -/

/-- Value of a list of ASCII digits read in base 10. -/
def digitsVal (l : List Char) : ℕ :=
  l.foldl (fun acc c => acc * 10 + (c.toNat - 48)) 0

/-- A nonempty run of ASCII digits. -/
def digitsOnly (l : List Char) : Bool :=
  !l.isEmpty && l.all Char.isDigit

/-- `re.fullmatch(r"-?\d+", s)`: optional leading minus then digits only. -/
def matchIntLit (s : String) : Bool :=
  match s.data with
  | [] => false
  | c :: rest => if c = '-' then digitsOnly rest else digitsOnly (c :: rest)

/-- `int(s)` for a string matching the integer literal pattern. -/
def intLitVal (s : String) : ℤ :=
  match s.data with
  | [] => 0
  | c :: rest => if c = '-' then -(digitsVal rest : ℤ) else (digitsVal (c :: rest) : ℤ)

/-- Split `digits '.' digits` (both runs nonempty) into the two runs. -/
def decimalParts (l : List Char) : Option (List Char × List Char) :=
  let p := l.span Char.isDigit
  match p.2 with
  | c :: fp => if c = '.' ∧ p.1 ≠ [] ∧ digitsOnly fp then some (p.1, fp) else none
  | [] => none

/-- Combined model of `re.fullmatch(r"-?\d+\.\d+", s)` followed by
`float(s)`: `some` exactly when the pattern matches (so the Python
`except` fallback to string is dead code), with the exact value. -/
def parseFloatLit (s : String) : Option ℚ :=
  match s.data with
  | [] => none
  | c :: rest =>
      if c = '-' then
        (decimalParts rest).map
          (fun p => -(qAdd (digitsVal p.1 : ℚ) (qDiv (digitsVal p.2 : ℚ) (qPow 10 p.2.length))))
      else
        (decimalParts (c :: rest)).map
          (fun p => qAdd (digitsVal p.1 : ℚ) (qDiv (digitsVal p.2 : ℚ) (qPow 10 p.2.length)))

/-- Python `int(text)` used on shared-string indices: strips
whitespace, allows one optional sign, then requires digits only;
raises (`Except.error`) otherwise. -/
def pyIntParse (s : String) : Except Unit ℤ :=
  match (pyStrip s).data with
  | '+' :: ds => if digitsOnly ds then .ok (digitsVal ds) else .error ()
  | '-' :: ds => if digitsOnly ds then .ok (-(digitsVal ds : ℤ)) else .error ()
  | ds => if digitsOnly ds then .ok (digitsVal ds) else .error ()

def parseSignedDigits : List Char → Option ℤ
  | '+' :: ds => if digitsOnly ds then some (digitsVal ds) else none
  | '-' :: ds => if digitsOnly ds then some (-(digitsVal ds : ℤ)) else none
  | ds => if digitsOnly ds then some (digitsVal ds) else none

def parseExpPart : List Char → Option ℤ
  | [] => some 0
  | 'e' :: r => parseSignedDigits r
  | 'E' :: r => parseSignedDigits r
  | _ => none

def parseUnsignedFloat (l : List Char) : Option ℚ :=
  let p := l.span Char.isDigit
  match p.2 with
  | '.' :: r2 =>
      let q := r2.span Char.isDigit
      if p.1 = [] ∧ q.1 = [] then none
      else (parseExpPart q.2).map
        (fun e => qMul (qAdd (digitsVal p.1 : ℚ) (qDiv (digitsVal q.1 : ℚ) (qPow 10 q.1.length)))
          (qZpow10 e))
  | _ =>
      if p.1 = [] then none
      else (parseExpPart p.2).map (fun e => qMul (digitsVal p.1 : ℚ) (qZpow10 e))

/-- Python `float(s)` on general text (as used for round-cell and spend
coercions): optional sign, digits with optional fraction, optional
exponent; `none` models a raised `ValueError`.  `inf`/`nan` are outside
the rational idealisation and not modelled. -/
def pyFloatParse (s : String) : Option ℚ :=
  match (pyStrip s).data with
  | '+' :: body => parseUnsignedFloat body
  | '-' :: body => (parseUnsignedFloat body).map Neg.neg
  | body => parseUnsignedFloat body

/-! ### Row normalisation (`normalize_rows`) -/

/-- Normalise one cell (`normalize_rows` inner loop, lines 119-138):
absent or `None` cell → null; trimmed `""`/`"-"` → null; integer
pattern → int; decimal pattern → float (string fallback if the parse
failed, which never happens); otherwise the trimmed string. -/
def normalizeCell (v : Option String) : Value :=
  match v with
  | none => .null
  | some s =>
      let t := pyStrip s
      if t = "-" ∨ t = "" then .null
      else if matchIntLit t then .int (intLitVal t)
      else
        match parseFloatLit t with
        | some q => .float q
        | none => .str t

/-- Base-26 column-letter index: the key function on line 110 (and
`to_index` in `col_letter_range`): `"A"=1, ..., "Z"=26, "AA"=27`. -/
def colIndex (c : String) : ℤ :=
  c.data.foldl (fun acc ch => acc * 26 + ((ch.toNat : ℤ) - 64)) 0

/-- Stable insertion into a sorted list: `x` goes before the first
element it is strictly `lt`-below, after anything it ties with. -/
def insertBy {α : Type} (lt : α → α → Bool) (x : α) : List α → List α
  | [] => [x]
  | y :: ys => if lt x y then x :: y :: ys else y :: insertBy lt x ys

/-- Stable sort (model of Python `sorted` with a key / comparator that
is a strict weak order). -/
def sortBy {α : Type} (lt : α → α → Bool) (l : List α) : List α :=
  l.foldl (fun acc x => insertBy lt x acc) []

/-- Python `row.get(col)`: `None` both for an absent key and for a
stored `None`. -/
def rawGet (r : RawRow) (c : String) : Option String :=
  match dictGet r c with
  | some v => v
  | none => none

/-- The distinct column letters of a raw row, in insertion order. -/
def rawKeys (r : RawRow) : List String :=
  fdedup (r.map Prod.fst)

/-- Line 110: the header row's column letters sorted by base-26 index. -/
def sortedCols (headerRow : RawRow) : List String :=
  sortBy (fun a b => colIndex a < colIndex b) (rawKeys headerRow)

/-- Line 111: header text for a column letter, `COL_<letter>` when the
row-1 cell is absent, `None`, or empty (falsy). -/
def headerName (headerRow : RawRow) (c : String) : String :=
  match rawGet headerRow c with
  | some s => if s = "" then "COL_" ++ c else s
  | none => "COL_" ++ c

/-- The derived header list (lines 108-111). -/
def headersOf (rows : List RawRow) : List String :=
  match rows with
  | [] => []
  | hr :: _ => (sortedCols hr).map (headerName hr)

/-- Build one record from one data row (lines 116-139). -/
def buildRecord (cols headers : List String) (r : RawRow) : Record :=
  (cols.zip headers).foldl
    (fun rec ch => dictInsert rec ch.2 (normalizeCell (rawGet r ch.1))) []

/-- `normalize_rows` (lines 97-141): headers from row 1, one record per
subsequent row. -/
def normalize_rows (rows : List RawRow) : List Record :=
  match rows with
  | [] => []
  | hr :: rest =>
      let cols := sortedCols hr
      let headers := cols.map (headerName hr)
      rest.map (buildRecord cols headers)

/-! ### Scoring (`run`, lines 159-248) -/

/-- Python `r.get(k)` on a record: the stored value, with both an
absent key and a stored `None` reading as `null`. -/
def recGet (r : Record) (k : String) : Value :=
  match dictGet r k with
  | some v => v
  | none => .null

/-- `^R\d{2}$`: the round-column header pattern. -/
def isRoundHeader (h : String) : Bool :=
  match h.data with
  | ['R', a, b] => a.isDigit && b.isDigit
  | _ => false

/-- Fallback round-column detection (lines 163-168): up to 30 headers
after `Player`, kept when some record holds an integer there. -/
def fallbackRoundCols (headers : List String) (norm : List Record) : List String :=
  match headers.indexOf? "Player" with
  | none => []
  | some idx =>
      ((headers.drop (idx + 1)).take 30).filter (fun h =>
        norm.any (fun r =>
          match dictGet r h with
          | some (.int _) => true
          | some (.bool _) => true
          | _ => false))

/-- Round-column detection as `run` performs it (lines 161-168). -/
def roundColsOf (headers : List String) (norm : List Record) : List String :=
  let rc := headers.filter isRoundHeader
  if rc = [] then fallbackRoundCols headers norm else rc

/-- Per-cell numeric contribution of a round column (lines 178-187 and
identically lines 236-244): missing → 0, native number → its value
(Python `bool` is an `int`), other text → `float(str(v))` with 0 on
failure. -/
def coerceRound (v : Value) : ℚ :=
  match v with
  | .null => 0
  | .int n => n
  | .float q => q
  | .bool b => if b then 1 else 0
  | .str s => (pyFloatParse s).getD 0
  | .floatList _ => 0

/-- The literal per-column accumulation loop (lines 173-190): running
sum `pts` and counter `counted`. -/
def roundsFold (round_cols : List String) (r : Record) : ℚ × ℕ :=
  round_cols.foldl (fun acc rc => (qAdd acc.1 (coerceRound (recGet r rc)), acc.2 + 1)) (0, 0)

/-- Lines 171-195: store `computed_rounds_total` / `computed_rounds_count`
(the dynamic int/float sum is represented uniformly as a rational). -/
def scoreRecord (round_cols : List String) (r : Record) : Record :=
  if round_cols = [] then
    dictInsert (dictInsert r "computed_rounds_total" .null)
      "computed_rounds_count" (.int 0)
  else
    let pc := roundsFold round_cols r
    dictInsert (dictInsert r "computed_rounds_total" (.float pc.1))
      "computed_rounds_count" (.int pc.2)

/-- Lines 198-202: the first of `Total`, `Pts`, `Points`, `TOTAL`
appearing among the headers. -/
def totalCol (headers : List String) : Option String :=
  ["Total", "Pts", "Points", "TOTAL"].find? (fun c => headers.contains c)

/-- Substring test (model of `re.search` with a literal pattern). -/
def containsSeq (hay sub : List ℕ) : Bool :=
  (List.range (hay.length + 1)).any (fun i => (hay.drop i).take sub.length = sub)

/-- Lines 205-209: case-insensitive search for `spend`/`spent`/`$m`/`$`. -/
def isSpendHeader (h : String) : Bool :=
  containsSeq (lowerStr h) (lowerStr "spend") || containsSeq (lowerStr h) (lowerStr "spent") ||
    containsSeq (lowerStr h) (lowerStr "$m") || containsSeq (lowerStr h) (lowerStr "$")

/-- `isinstance(v, (int, float))` (Python `bool` is a subclass of `int`). -/
def isNumeric (v : Value) : Bool :=
  match v with
  | .int _ => true
  | .float _ => true
  | .bool _ => true
  | _ => false

/-- Numeric value of a `Value` known to be numeric (`float(tot)`). -/
def numVal (v : Value) : ℚ :=
  match v with
  | .int n => n
  | .float q => q
  | .bool b => if b then 1 else 0
  | _ => 0

/-- Lines 213-219: the stored `_rank_total`. -/
def rankTotalOf (total_col : Option String) (r : Record) : ℚ :=
  let tot :=
    match total_col with
    | some tc =>
        if isNumeric (recGet r tc) then recGet r tc
        else recGet r "computed_rounds_total"
    | none => recGet r "computed_rounds_total"
  match tot with
  | .null => 0
  | v => numVal v

/-- `str(v).replace(',', '').replace('$', '')`. -/
def stripMoney (s : String) : String :=
  ⟨s.data.filter (fun c => c ≠ ',' ∧ c ≠ '$')⟩

/-- Lines 222-230: the stored `_rank_spend`.  For native numbers the
`float(str(v))` round trip is the identity; strings are stripped of
commas and dollar signs then parsed, 0.0 on failure; `str()` of other
values never parses as a float. -/
def spendValue (spend_col : Option String) (r : Record) : ℚ :=
  match spend_col with
  | none => 0
  | some sc =>
      match recGet r sc with
      | .null => 0
      | .int n => n
      | .float q => q
      | .str s => (pyFloatParse (stripMoney s)).getD 0
      | .bool _ => 0
      | .floatList _ => 0

/-- Lines 232-248: the countback list, the round scores coerced as in
the aggregate loop then sorted descending (`reverse=True`, stable). -/
def countbackOf (round_cols : List String) (r : Record) : List ℚ :=
  sortBy (fun a b => b < a)
    (round_cols.map (fun rc => coerceRound (recGet r rc)))

/-- A record together with the ranking helper fields `run` stores into
it (`_rank_total`, `_rank_spend`, `_countback`); per the design notes
the fixed derived fields are carried as typed components. -/
structure RRow where
  record : Record
  rankTotal : ℚ
  rankSpend : ℚ
  countback : List ℚ
  deriving DecidableEq, Inhabited

/-- Lines 212-248 for one record. -/
def buildRRow (total_col spend_col : Option String) (round_cols : List String)
    (r : Record) : RRow :=
  { record := r
    rankTotal := rankTotalOf total_col r
    rankSpend := spendValue spend_col r
    countback := countbackOf round_cols r }

/-! ### The comparator (`_compare_rows`, lines 275-292) -/

/-- The countback comparison loop (lines 285-290): indices `i` up to
`max` length, the shorter side padded with `0.0`. -/
def cbLoop (al bl : List ℚ) : ℕ → ℕ → Int
  | _, 0 => 0
  | i, k + 1 =>
      let av := al.getD i 0
      let bv := bl.getD i 0
      if av ≠ bv then (if bv < av then -1 else 1)
      else cbLoop al bl (i + 1) k

/-- `_compare_rows`: total descending, then spend ascending, then the
padded countback vectors, else 0. -/
def compare_rows (a b : RRow) : Int :=
  if a.rankTotal ≠ b.rankTotal then (if b.rankTotal < a.rankTotal then -1 else 1)
  else if a.rankSpend ≠ b.rankSpend then (if a.rankSpend < b.rankSpend then -1 else 1)
  else cbLoop a.countback b.countback 0 (max a.countback.length b.countback.length)

/-! ### Ranking (`rank_rows`, lines 295-331) -/

/-- Python truthiness, for `a.get('Player') or ''`. -/
def truthy (v : Value) : Bool :=
  match v with
  | .null => false
  | .bool b => b
  | .int n => n ≠ 0
  | .float q => q ≠ 0
  | .str s => s ≠ ""
  | .floatList l => !l.isEmpty

/-- `v or ''`. -/
def pyOr (v : Value) : Value :=
  if truthy v then v else .str ""

/-- `a.get('Player') or ''` for a ranking row. -/
def playerVal (r : RRow) : Value :=
  pyOr (recGet r.record "Player")

/-- Python `<` between two dynamic values: numbers compare numerically,
strings by code points, lists lexicographically; mixing types raises
`TypeError` (`Except.error`). -/
def pyLtVal (a b : Value) : Except Unit Bool :=
  match a, b with
  | .str x, .str y => .ok (strLt x y)
  | .int x, .int y => .ok (decide (x < y))
  | .float x, .float y => .ok (decide (x < y))
  | .int x, .float y => .ok (decide ((x : ℚ) < y))
  | .float x, .int y => .ok (decide (x < (y : ℚ)))
  | .bool x, .bool y => .ok (decide (x < y))
  | .bool x, .int y => .ok (decide ((if x then 1 else 0) < y))
  | .int x, .bool y => .ok (decide (x < (if y then 1 else 0)))
  | .bool x, .float y => .ok (decide ((if x then (1 : ℚ) else 0) < y))
  | .float x, .bool y => .ok (decide (x < (if y then (1 : ℚ) else 0)))
  | _, _ => .error ()

/-- The full sort comparator of line 302:
`_compare_rows(a, b) or (-1 if (a.get('Player') or '') < (b.get('Player') or '') else 1)`. -/
def cmpWithName (a b : RRow) : Except Unit Int := do
  let c := compare_rows a b
  if c ≠ 0 then return c
  else
    let lt ← pyLtVal (playerVal a) (playerVal b)
    return (if lt then -1 else 1)

/-- Stable insertion under the fallible comparator (the sort performs a
name comparison only where the numeric levels tie, as `sorted` does). -/
def insertRanked (x : RRow) : List RRow → Except Unit (List RRow)
  | [] => .ok [x]
  | y :: ys => do
      let c ← cmpWithName x y
      if c < 0 then return x :: y :: ys
      else
        let zs ← insertRanked x ys
        return y :: zs

/-- Model of `sorted(norm, key=cmp_to_key(...))`: a stable sort; for a
strict-weak-order comparator (which line 302's is) the stable result is
unique, so this agrees with CPython's sort. -/
def sortRanked (l : List RRow) : Except Unit (List RRow) :=
  l.foldlM (fun acc x => insertRanked x acc) []

/-- A tie-key: rounded total, rounded spend, rounded countback tuple. -/
abbrev TieKey := ℚ × ℚ × List ℚ

/-- Round half to even (Python `round`) at the integer position. -/
def roundHalfEven (q : ℚ) : ℤ :=
  let f := ⌊q⌋
  let r := qSub q (f : ℚ)
  if r < mkRat 1 2 then f
  else if mkRat 1 2 < r then f + 1
  else if f % 2 = 0 then f else f + 1

/-- `round(x, 6)`. -/
def round6 (q : ℚ) : ℚ :=
  qDiv (roundHalfEven (qMul q 1000000) : ℚ) 1000000

/-- `key_for` (lines 304-305). -/
def key_for (r : RRow) : TieKey :=
  (round6 r.rankTotal, round6 r.rankSpend, r.countback.map round6)

/-- A row annotated with `rank`, `tie_group`, `tie_highlight`. -/
structure RankedRow where
  row : RRow
  rank : ℕ
  tieGroup : Option ℕ
  tieHighlight : Bool
  deriving DecidableEq, Inhabited

/-- `group_map[k]` lookup. -/
def lookupKey (gm : List (TieKey × ℕ)) (k : TieKey) : Option ℕ :=
  (gm.find? (fun p => p.1 = k)).map (fun p => p.2)

/-- One step of the `group_map` / `tie_group_id` update (lines 312-314):
an unseen key occurring more than once gets the next fresh identifier. -/
def gmStep (ks : List TieKey) (gm : List (TieKey × ℕ)) (tid : ℕ) (k : TieKey) :
    List (TieKey × ℕ) × ℕ :=
  if (lookupKey gm k).isNone ∧ 1 < ks.count k then (gm ++ [(k, tid + 1)], tid + 1)
  else (gm, tid)

/-- The rank assigned at enumeration index `idx` (lines 315-322): `1`
first, the previous row's rank on a tie-key match, else `idx + 1`
(1-based position). -/
def rankStep (prev : Option RankedRow) (idx : ℕ) (k : TieKey) : ℕ :=
  match prev with
  | none => 1
  | some p => if key_for p.row = k then p.rank else idx + 1

/-- The annotated row produced for `r` (lines 310-329). -/
def annotRow (ks : List TieKey) (gm : List (TieKey × ℕ)) (tid : ℕ)
    (prev : Option RankedRow) (idx : ℕ) (r : RRow) : RankedRow :=
  let k := key_for r
  { row := r
    rank := rankStep prev idx k
    tieGroup := if 1 < ks.count k then lookupKey (gmStep ks gm tid k).1 k else none
    tieHighlight := decide (1 < ks.count k) }

/-- The annotation walk (lines 308-329): `ks` is the precomputed
`Counter` source (all keys of the sorted sequence), `gm`/`tid` the
`group_map`/`tie_group_id` state, `idx` the enumeration index and
`prev` the previously annotated row. -/
def annotateLoop (ks : List TieKey) :
    List (TieKey × ℕ) → ℕ → ℕ → Option RankedRow → List RRow → List RankedRow
  | _, _, _, _, [] => []
  | gm, tid, idx, prev, r :: rest =>
      let ranked := annotRow ks gm tid prev idx r
      ranked :: annotateLoop ks (gmStep ks gm tid (key_for r)).1
        (gmStep ks gm tid (key_for r)).2 (idx + 1) (some ranked) rest

/-- `rank_rows` (lines 295-331): sort by the full comparator, then walk
the sorted sequence assigning rank and tie metadata. -/
def rank_rows (l : List RRow) : Except Unit (List RankedRow) := do
  let s ← sortRanked l
  let ks := s.map key_for
  return annotateLoop ks [] 0 0 none s

/-! ### Workbook reader (`parse_xlsx_to_rows`, lines 28-76) -/

/-- One `<c>` element of the worksheet XML: cell reference, optional
type attribute, optional `<v>` text, optional inline-string text. -/
structure Cell where
  ref : String
  t : Option String
  v : Option String
  inlineStr : Option String
  deriving DecidableEq

/-- The opened workbook package as structured (well-formed) XML: the
optional shared-string part and the optional first worksheet, the
latter as rows of cells. -/
structure Pkg where
  sharedStrings : Option (List String)
  sheet : Option (List (List Cell))
  deriving DecidableEq

/-- Python `shared[idx]` on a list: negative indices address from the
end, out-of-range raises `IndexError`. -/
def pyListIndex (l : List String) (i : ℤ) : Except Unit String :=
  let j := if i < 0 then i + l.length else i
  if 0 ≤ j ∧ j < l.length then .ok (l.getD j.toNat "") else .error ()

/-- Lines 54-56: the leading run of capital letters of the cell
reference, or the whole reference when the regex does not match. -/
def colOf (ref : String) : String :=
  let pre := ref.data.takeWhile (fun c => 'A' ≤ c ∧ c ≤ 'Z')
  if pre = [] then ref else ⟨pre⟩

/-- Lines 57-72: the raw value of one cell.  A string-typed cell parses
its `<v>` text as a shared-string index (propagating an `int()`
failure) and looks it up only when in range, keeping the raw index text
otherwise; other cells keep their `<v>` text; cells without `<v>` fall
back to the inline string. -/
def cellValue (shared : List String) (c : Cell) : Except Unit (Option String) :=
  match c.v with
  | some text =>
      if c.t = some "s" then do
        let idx ← pyIntParse text
        if 0 ≤ idx ∧ idx < (shared.length : ℤ) then do
          let s ← pyListIndex shared idx
          return some s
        else return some text
      else .ok (some text)
  | none => .ok c.inlineStr

/-- Lines 52-74: build the dict of one row, keyed by column letter. -/
def parseRowCells (shared : List String) (cells : List Cell) : Except Unit RawRow :=
  cells.foldlM
    (fun acc c => do
      let val ← cellValue shared c
      return dictInsert acc (colOf c.ref) val) []

/-- `parse_xlsx_to_rows` on an opened package: `FileNotFoundError` when
the first worksheet part is absent, else the parsed rows. -/
def parse_xlsx_to_rows (p : Pkg) : Except Unit (List RawRow) :=
  match p.sheet with
  | none => .error ()
  | some rws => rws.mapM (parseRowCells (p.sharedStrings.getD []))

/-! ### The entry point (`run`, lines 152-272) -/

/-- A row as written to both outputs: the scored record with its
ranking fields, plus the rank annotations when ranking succeeded. -/
structure OutRow where
  row : RRow
  rankInfo : Option (ℕ × Option ℕ × Bool)
  deriving DecidableEq

/-- The descriptor `run` returns, with the serialized row lists
standing for the two written files. -/
structure RunResult where
  csvRows : List OutRow
  jsonRows : List OutRow
  rowCount : ℕ
  roundColumns : List String
  deriving DecidableEq

/-- `run(input_path, out_dir)`.  `none` models an input package that
cannot be opened (`zipfile` failure); parse errors propagate; an empty
normalized dataset raises (`RuntimeError`); the ranking stage's
exceptions are swallowed (lines 255-259) and the unranked records are
written instead. -/
def run (pkg : Option Pkg) : Except Unit RunResult := do
  let p ← match pkg with
    | none => Except.error ()
    | some p => Except.ok p
  let rows ← parse_xlsx_to_rows p
  let norm := normalize_rows rows
  if norm = [] then Except.error ()
  else
    let headers := (norm.headD []).map Prod.fst
    let round_cols := roundColsOf headers norm
    let scored := norm.map (scoreRecord round_cols)
    let total_col := totalCol headers
    let spend_col := headers.find? isSpendHeader
    let rrows := scored.map (buildRRow total_col spend_col round_cols)
    let final : List OutRow :=
      match rank_rows rrows with
      | .ok out => out.map (fun r => ⟨r.row, some (r.rank, r.tieGroup, r.tieHighlight)⟩)
      | .error _ => rrows.map (fun r => ⟨r, none⟩)
    return ⟨final, final, final.length, round_cols⟩

/-! ### Specification-side helper definitions -/

/-- Element of a countback vector padded with `0.0` past its end. -/
def pad (l : List ℚ) (i : ℕ) : ℚ := l.getD i 0

/-- The display-name string used by the comparator when the player slot
holds a string (the junk value `""` otherwise). -/
def pureNameOf (r : RRow) : String :=
  match playerVal r with
  | .str s => s
  | _ => ""

/-- The row's `'Player'` entry (after `or ''`) is a string, so every
name comparison the sort performs succeeds. -/
def NameOk (r : RRow) : Prop :=
  ∃ s, playerVal r = .str s

/-- The pure value of the full comparator on rows with string names. -/
def pureCmp (a b : RRow) : Int :=
  let c := compare_rows a b
  if c ≠ 0 then c else (if strLt (pureNameOf a) (pureNameOf b) then -1 else 1)

/-- Pure counterpart of `sortRanked`: what the sort computes whenever
no comparison raises. -/
def sortP (l : List RRow) : List RRow :=
  sortBy (fun a b => pureCmp a b = -1) l

/-- The padded countback vector of `a` beats that of `b` at the first
differing index. -/
def cbLt (al bl : List ℚ) : Prop :=
  ∃ i, (∀ j, j < i → pad al j = pad bl j) ∧ pad bl i < pad al i

/-- The padded countback vectors agree everywhere. -/
def cbEq (al bl : List ℚ) : Prop :=
  ∀ i, pad al i = pad bl i

/-- The strict weak order the full comparator realises: total
descending, then spend ascending, then countback descending, then name
ascending. -/
def rowLt (a b : RRow) : Prop :=
  b.rankTotal < a.rankTotal ∨
    (a.rankTotal = b.rankTotal ∧ (a.rankSpend < b.rankSpend ∨
      (a.rankSpend = b.rankSpend ∧ (cbLt a.countback b.countback ∨
        (cbEq a.countback b.countback ∧ strLt (pureNameOf a) (pureNameOf b) = true)))))

/-- A bare ranking row holding just a player name and the three
ranking fields, as the tiebreaker tests construct them. -/
def wRow (name : String) (tot spend : ℚ) (cb : List ℚ) : RRow :=
  { record := [("Player", Value.str name)]
    rankTotal := tot
    rankSpend := spend
    countback := cb }

/-- The integer-literal pattern of the normaliser, stated as the spec
words it: an optional leading minus followed by one or more digits. -/
def IntShape (t : String) : Prop :=
  ∃ ds : List Char, ds ≠ [] ∧ (∀ c ∈ ds, c.isDigit = true) ∧
    (t.data = ds ∨ t.data = '-' :: ds)

/-- The decimal pattern of the normaliser, stated as the spec words it:
an optional leading minus, digits, a dot, digits. -/
def FloatShape (t : String) : Prop :=
  ∃ ip fp : List Char, ip ≠ [] ∧ fp ≠ [] ∧ (∀ c ∈ ip, c.isDigit = true) ∧
    (∀ c ∈ fp, c.isDigit = true) ∧
    (t.data = ip ++ '.' :: fp ∨ t.data = '-' :: (ip ++ '.' :: fp))

/-- A plain cell (no type attribute, a `<v>` text) for test sheets. -/
def cellWith (ref v : String) : Cell :=
  { ref := ref, t := none, v := some v, inlineStr := none }

/-- Fixture for the rank-assignment claim: a three-way tie then one
lower entrant. -/
def tieRankRows : List RRow :=
  [wRow "C" 7 1 [], wRow "A" 7 1 [], wRow "B" 7 1 [], wRow "D" 5 1 []]

/-- What `rank_rows` produces on `tieRankRows`. -/
def tieRankOut : List RankedRow :=
  [⟨wRow "A" 7 1 [], 1, some 1, true⟩, ⟨wRow "B" 7 1 [], 1, some 1, true⟩,
   ⟨wRow "C" 7 1 [], 1, some 1, true⟩, ⟨wRow "D" 5 1 [], 4, none, false⟩]

/-- Fixture workbook: header row, two entrant rows. -/
def demoSheet : List (List Cell) :=
  [[cellWith "A1" "Player", cellWith "B1" "R01", cellWith "C1" "R02",
    cellWith "D1" "Total", cellWith "E1" "Spent ($m)"],
   [cellWith "A2" "Abe", cellWith "B2" "10", cellWith "C2" "20",
    cellWith "D2" "30", cellWith "E2" "4.5"],
   [cellWith "A3" "Bea", cellWith "B3" "25", cellWith "C3" "5",
    cellWith "D3" "30", cellWith "E3" "4.0"]]

def demoPkg : Pkg := { sharedStrings := none, sheet := some demoSheet }

/-- Position-`i` rank in an annotated list. -/
def rnkAt (out : List RankedRow) (i : ℕ) : ℕ :=
  (out.getD i default).rank

/-- Position-`i` tie-key in an annotated list. -/
def keyAt (out : List RankedRow) (i : ℕ) : TieKey :=
  key_for (out.getD i default).row

/-- The header list as the spec words it: one header per distinct
column letter encountered anywhere in the sheet (not only in row 1),
ordered by base-26 index, named from the row-1 cell. -/
def headersSpecC8 (rows : List RawRow) : List String :=
  match rows with
  | [] => []
  | hr :: _ =>
      (sortBy (fun a b => colIndex a < colIndex b)
        (fdedup ((rows.map (fun r => r.map Prod.fst)).flatten))).map (headerName hr)

/-- A sheet whose second row introduces the column letter `B`, absent
from the header row. -/
def c8Rows : List RawRow :=
  [[("A", some "Pos")], [("A", some "1"), ("B", some "x")]]

/-- The header list `run` derives from a normalized dataset (line 159). -/
def headersOfNorm (norm : List Record) : List String :=
  (norm.headD []).map Prod.fst

/-- The round columns `run` detects (lines 161-168). -/
def roundColsOfNorm (norm : List Record) : List String :=
  roundColsOf (headersOfNorm norm) norm

/-- The ranking-ready rows `run` builds before sorting (lines 171-248). -/
def rrowsOf (norm : List Record) : List RRow :=
  ((norm.map (scoreRecord (roundColsOfNorm norm))).map
    (buildRRow (totalCol (headersOfNorm norm))
      ((headersOfNorm norm).find? isSpendHeader) (roundColsOfNorm norm)))

/-- What `run` returns once parsing and normalization have succeeded
with a non-empty dataset (lines 254-272). -/
def runResultOf (norm : List Record) : RunResult :=
  let final : List OutRow :=
    match rank_rows (rrowsOf norm) with
    | .ok out => out.map (fun r => ⟨r.row, some (r.rank, r.tieGroup, r.tieHighlight)⟩)
    | .error _ => (rrowsOf norm).map (fun r => ⟨r, none⟩)
  ⟨final, final, final.length, roundColsOfNorm norm⟩

/-- A package that opens and has its worksheet, but whose only cell is
string-typed with a `<v>` text that is not an integer literal. -/
def c9BadPkg : Pkg :=
  { sharedStrings := some ["Alice"],
    sheet := some [[{ ref := "A1", t := some "s", v := some "abc", inlineStr := none }]] }

/-- The first occurrences, within the processed elements `pre`, of keys
occurring more than once in the whole sequence `ks`: the keys holding a
tie-group identifier after processing `pre`. -/
def dupFirstsP (ks pre : List TieKey) : List TieKey :=
  (fdedup pre).filter (fun k => 1 < ks.count k)

/-- The first occurrences of multiply-occurring keys of the whole
sorted key sequence, in sequence order: the spec's tie-group assignment
order. -/
def dupFirsts (ks : List TieKey) : List TieKey :=
  dupFirstsP ks ks

/-- The group map holding identifiers `n+1, n+2, ...` for a key list. -/
def gmOfFrom (n : ℕ) : List TieKey → List (TieKey × ℕ)
  | [] => []
  | k :: rest => (k, n + 1) :: gmOfFrom (n + 1) rest

/-- The group map with identifiers `1, 2, ...` in list order. -/
def gmOf (l : List TieKey) : List (TieKey × ℕ) :=
  gmOfFrom 0 l

/-- The position of the first occurrence of `k` in a key list. -/
def posIn : List TieKey → TieKey → ℕ
  | [], _ => 0
  | x :: xs, k => if x = k then 0 else posIn xs k + 1

/-- Fixture for the tie-group/rank counterexample: Cara's and Bea's
totals agree once rounded to 6 decimal places (equal tie-keys) but
Abe's raw total lies strictly between their raw totals. -/
def C3rows : List RRow :=
  [wRow "Cara" (mkRat 5000001 5000000) 5 [], wRow "Abe" (mkRat 10000001 10000000) 1 [],
   wRow "Bea" 1 5 []]

/-- What `rank_rows` produces on `C3rows`. -/
def C3out : List RankedRow :=
  [⟨wRow "Cara" (mkRat 5000001 5000000) 5 [], 1, some 1, true⟩,
   ⟨wRow "Abe" (mkRat 10000001 10000000) 1 [], 2, none, false⟩,
   ⟨wRow "Bea" 1 5 [], 3, some 1, true⟩]

/-- A package that parses and normalizes fine but whose mixed-type
`Player` column (a string in one row, an integer in another, all
numeric tiebreak levels equal) makes the ranking comparator raise. -/
def c9RankPkg : Pkg :=
  { sharedStrings := none,
    sheet := some
      [[{ ref := "A1", t := none, v := some "Player", inlineStr := none }],
       [{ ref := "A2", t := none, v := some "abc", inlineStr := none }],
       [{ ref := "A3", t := none, v := some "5", inlineStr := none }]] }

/-! ## Theorems -/

/-! ### The kernel-computable arithmetic agrees with the standard one -/

lemma qAdd_eq (a b : ℚ) : qAdd a b = a + b := (Rat.add_def' a b).symm

lemma qMul_eq (a b : ℚ) : qMul a b = a * b := by
  rw [Rat.mul_def, Rat.normalize_eq_mkRat]
  rfl

lemma qDiv_eq (a b : ℚ) : qDiv a b = a / b := (Rat.div_def' a b).symm

lemma qSub_eq (a b : ℚ) : qSub a b = a - b := by
  unfold qSub
  rw [qAdd_eq, sub_eq_add_neg]

lemma qPow_eq (a : ℚ) : ∀ n : ℕ, qPow a n = a ^ n
  | 0 => by rw [qPow, pow_zero]
  | n + 1 => by rw [qPow, qMul_eq, qPow_eq a n, pow_succ]

lemma qZpow10_eq (e : ℤ) : qZpow10 e = (10 : ℚ) ^ e := by
  cases e with
  | ofNat n =>
      show qPow 10 n = (10 : ℚ) ^ (n : ℤ)
      rw [qPow_eq, zpow_natCast]
  | negSucc n =>
      show qDiv 1 (qPow 10 (n + 1)) = _
      rw [qDiv_eq, qPow_eq, zpow_negSucc, one_div]

/-! ### The comparator (claim C1) -/

lemma cbLoop_zero_iff (al bl : List ℚ) :
    ∀ (k i : ℕ), (cbLoop al bl i k = 0 ↔ ∀ j, j < k → pad al (i + j) = pad bl (i + j)) := by
  intro k
  induction k with
  | zero => intro i; simp [cbLoop]
  | succ n ih =>
      intro i
      show (if al.getD i 0 ≠ bl.getD i 0 then
              (if bl.getD i 0 < al.getD i 0 then (-1 : Int) else 1)
            else cbLoop al bl (i + 1) n) = 0 ↔ _
      by_cases h : al.getD i 0 = bl.getD i 0
      · rw [if_neg (not_not_intro h), ih (i + 1)]
        constructor
        · intro H j hj
          match j with
          | 0 => simpa [pad] using h
          | m + 1 =>
              have := H m (by omega)
              rw [show i + 1 + m = i + (m + 1) by omega] at this
              exact this
        · intro H j hj
          have := H (j + 1) (by omega)
          rw [show i + (j + 1) = i + 1 + j by omega] at this
          exact this
      · rw [if_pos h]
        refine iff_of_false ?_ ?_
        · by_cases hlt : bl.getD i 0 < al.getD i 0
          · rw [if_pos hlt]; decide
          · rw [if_neg hlt]; decide
        · intro H
          exact h (by simpa [pad] using H 0 (by omega))

lemma cbLoop_neg_iff (al bl : List ℚ) :
    ∀ (k i : ℕ), (cbLoop al bl i k = -1 ↔
      ∃ j, j < k ∧ (∀ m, m < j → pad al (i + m) = pad bl (i + m)) ∧
        pad bl (i + j) < pad al (i + j)) := by
  intro k
  induction k with
  | zero => intro i; simp [cbLoop]
  | succ n ih =>
      intro i
      show (if al.getD i 0 ≠ bl.getD i 0 then
              (if bl.getD i 0 < al.getD i 0 then (-1 : Int) else 1)
            else cbLoop al bl (i + 1) n) = -1 ↔ _
      by_cases h : al.getD i 0 = bl.getD i 0
      · rw [if_neg (not_not_intro h), ih (i + 1)]
        constructor
        · rintro ⟨j, hj, hall, hlt⟩
          refine ⟨j + 1, by omega, ?_, ?_⟩
          · intro m hm
            match m with
            | 0 => simpa [pad] using h
            | m' + 1 =>
                have := hall m' (by omega)
                rw [show i + 1 + m' = i + (m' + 1) by omega] at this
                exact this
          · rw [show i + (j + 1) = i + 1 + j by omega]
            exact hlt
        · rintro ⟨j, hj, hall, hlt⟩
          match j with
          | 0 =>
              have heq : pad al (i + 0) = pad bl (i + 0) := by simpa [pad] using h
              exact absurd heq hlt.ne'
          | j' + 1 =>
              refine ⟨j', by omega, ?_, ?_⟩
              · intro m hm
                have := hall (m + 1) (by omega)
                rw [show i + (m + 1) = i + 1 + m by omega] at this
                exact this
              · rw [show i + 1 + j' = i + (j' + 1) by omega]
                exact hlt
      · rw [if_pos h]
        by_cases hlt : bl.getD i 0 < al.getD i 0
        · rw [if_pos hlt]
          refine iff_of_true rfl ⟨0, by omega, by omega, by simpa [pad] using hlt⟩
        · rw [if_neg hlt]
          refine iff_of_false (by decide) ?_
          rintro ⟨j, hj, hall, hlt'⟩
          match j with
          | 0 => exact hlt (by simpa [pad] using hlt')
          | j' + 1 => exact h (by simpa [pad] using hall 0 (by omega))

lemma pad_eq_zero_of_le {l : List ℚ} {i : ℕ} (h : l.length ≤ i) : pad l i = 0 :=
  List.getD_eq_default _ _ h

lemma compare_rows_spec (a b : RRow) :
    (compare_rows a b = -1 ↔
      b.rankTotal < a.rankTotal
        ∨ (a.rankTotal = b.rankTotal ∧ a.rankSpend < b.rankSpend)
        ∨ (a.rankTotal = b.rankTotal ∧ a.rankSpend = b.rankSpend ∧
            ∃ i, (∀ j, j < i → pad a.countback j = pad b.countback j) ∧
              pad b.countback i < pad a.countback i))
    ∧ (compare_rows a b = 0 ↔
        a.rankTotal = b.rankTotal ∧ a.rankSpend = b.rankSpend ∧
          ∀ i, pad a.countback i = pad b.countback i) := by
  unfold compare_rows
  by_cases ht : a.rankTotal = b.rankTotal
  · rw [if_neg (not_not_intro ht)]
    by_cases hs : a.rankSpend = b.rankSpend
    · rw [if_neg (not_not_intro hs)]
      constructor
      · rw [cbLoop_neg_iff]
        constructor
        · rintro ⟨j, -, hall, hlt⟩
          refine Or.inr (Or.inr ⟨ht, hs, j, ?_, ?_⟩)
          · intro m hm
            simpa using hall m hm
          · simpa using hlt
        · rintro (hbl | ⟨-, hsl⟩ | ⟨-, -, j, hall, hlt⟩)
          · exact absurd hbl (by rw [ht]; exact lt_irrefl _)
          · exact absurd hsl (by rw [hs]; exact lt_irrefl _)
          · have hjlt : j < max a.countback.length b.countback.length := by
              by_contra hge
              push_neg at hge
              rw [pad_eq_zero_of_le (le_trans (le_max_left _ _) hge),
                pad_eq_zero_of_le (le_trans (le_max_right _ _) hge)] at hlt
              exact lt_irrefl 0 hlt
            exact ⟨j, hjlt, by simpa using hall, by simpa using hlt⟩
      · rw [cbLoop_zero_iff]
        constructor
        · intro H
          refine ⟨ht, hs, fun i => ?_⟩
          by_cases hi : i < max a.countback.length b.countback.length
          · simpa using H i hi
          · push_neg at hi
            rw [pad_eq_zero_of_le (le_trans (le_max_left _ _) hi),
              pad_eq_zero_of_le (le_trans (le_max_right _ _) hi)]
        · rintro ⟨-, -, H⟩ j -
          simpa using H j
    · rw [if_pos hs]
      by_cases hlt : a.rankSpend < b.rankSpend
      · rw [if_pos hlt]
        refine ⟨iff_of_true rfl (Or.inr (Or.inl ⟨ht, hlt⟩)), iff_of_false (by decide) ?_⟩
        rintro ⟨-, hse, -⟩
        exact hs hse
      · rw [if_neg hlt]
        refine ⟨iff_of_false (by decide) ?_, iff_of_false (by decide) ?_⟩
        · rintro (hbl | ⟨-, hsl⟩ | ⟨-, hse, -⟩)
          · exact absurd hbl (by rw [ht]; exact lt_irrefl _)
          · exact hlt hsl
          · exact hs hse
        · rintro ⟨-, hse, -⟩
          exact hs hse
  · rw [if_pos ht]
    by_cases hgt : b.rankTotal < a.rankTotal
    · rw [if_pos hgt]
      refine ⟨iff_of_true rfl (Or.inl hgt), iff_of_false (by decide) ?_⟩
      rintro ⟨hte, -⟩
      exact ht hte
    · rw [if_neg hgt]
      refine ⟨iff_of_false (by decide) ?_, iff_of_false (by decide) ?_⟩
      · rintro (hbl | ⟨hte, -⟩ | ⟨hte, -, -⟩)
        · exact hgt hbl
        · exact ht hte
        · exact ht hte
      · rintro ⟨hte, -⟩
        exact ht hte

/-- C1: the sort comparator places `a` before `b` (returns `-1`) iff
`a`'s ranking total is greater, or totals tie and `a`'s spend is
smaller, or totals and spends tie and at the first index where the
0-padded descending countback vectors (shorter side padded with `0.0`)
differ `a`'s element is greater; it reports a tie (`0`) iff all three
levels are fully equal. -/
theorem compare_rows_characterization (a b : RRow) :
    (compare_rows a b = -1 ↔
      b.rankTotal < a.rankTotal
        ∨ (a.rankTotal = b.rankTotal ∧ a.rankSpend < b.rankSpend)
        ∨ (a.rankTotal = b.rankTotal ∧ a.rankSpend = b.rankSpend ∧
            ∃ i, (∀ j, j < i → pad a.countback j = pad b.countback j) ∧
              pad b.countback i < pad a.countback i))
    ∧ (compare_rows a b = 0 ↔
        a.rankTotal = b.rankTotal ∧ a.rankSpend = b.rankSpend ∧
          ∀ i, pad a.countback i = pad b.countback i) :=
  compare_rows_spec a b

/-! ### Order theory of the full comparator -/

lemma cbLoop_mem (al bl : List ℚ) :
    ∀ k i, cbLoop al bl i k = -1 ∨ cbLoop al bl i k = 0 ∨ cbLoop al bl i k = 1 := by
  intro k
  induction k with
  | zero => intro i; right; left; rfl
  | succ n ih =>
      intro i
      have hstep : cbLoop al bl i (n + 1) =
          (if al.getD i 0 ≠ bl.getD i 0 then
            (if bl.getD i 0 < al.getD i 0 then (-1 : Int) else 1)
          else cbLoop al bl (i + 1) n) := rfl
      rw [hstep]
      split_ifs with h h2
      · left; rfl
      · right; right; rfl
      · exact ih (i + 1)

lemma compare_rows_mem (a b : RRow) :
    compare_rows a b = -1 ∨ compare_rows a b = 0 ∨ compare_rows a b = 1 := by
  unfold compare_rows
  split_ifs with h1 h2 h3 h4
  · left; rfl
  · right; right; rfl
  · left; rfl
  · right; right; rfl
  · exact cbLoop_mem _ _ _ _

lemma cbEq_refl (al : List ℚ) : cbEq al al := fun _ => rfl

lemma cbEq_symm {al bl : List ℚ} (h : cbEq al bl) : cbEq bl al :=
  fun i => (h i).symm

lemma cbEq_trans {al bl cl : List ℚ} (h1 : cbEq al bl) (h2 : cbEq bl cl) : cbEq al cl :=
  fun i => (h1 i).trans (h2 i)

lemma not_cbLt_of_cbEq {al bl : List ℚ} (h : cbEq al bl) : ¬ cbLt bl al := by
  rintro ⟨i, -, hlt⟩
  rw [h i] at hlt
  exact lt_irrefl _ hlt

lemma cbLt_asymm {al bl : List ℚ} (h1 : cbLt al bl) (h2 : cbLt bl al) : False := by
  obtain ⟨i, he1, hl1⟩ := h1
  obtain ⟨j, he2, hl2⟩ := h2
  rcases lt_trichotomy i j with hij | rfl | hji
  · rw [he2 i hij] at hl1
    exact lt_irrefl _ hl1
  · exact lt_asymm hl1 hl2
  · rw [he1 j hji] at hl2
    exact lt_irrefl _ hl2

lemma cbLt_trans {al bl cl : List ℚ} (h1 : cbLt al bl) (h2 : cbLt bl cl) : cbLt al cl := by
  obtain ⟨i, he1, hl1⟩ := h1
  obtain ⟨j, he2, hl2⟩ := h2
  rcases lt_trichotomy i j with hij | rfl | hji
  · refine ⟨i, fun m hm => (he1 m hm).trans (he2 m (hm.trans hij)), ?_⟩
    rw [← he2 i hij]
    exact hl1
  · exact ⟨i, fun m hm => (he1 m hm).trans (he2 m hm), lt_trans hl2 hl1⟩
  · refine ⟨j, fun m hm => (he1 m (hm.trans hji)).trans (he2 m hm), ?_⟩
    rw [he1 j hji]
    exact hl2

lemma cbLt_congr_left {al bl cl : List ℚ} (h : cbEq al bl) : cbLt al cl ↔ cbLt bl cl := by
  constructor <;> rintro ⟨i, he, hl⟩
  · refine ⟨i, fun m hm => (h m).symm.trans (he m hm), ?_⟩
    rw [← h i]
    exact hl
  · refine ⟨i, fun m hm => (h m).trans (he m hm), ?_⟩
    rw [h i]
    exact hl

lemma cbLt_congr_right {al bl cl : List ℚ} (h : cbEq bl cl) : cbLt al bl ↔ cbLt al cl := by
  constructor <;> rintro ⟨i, he, hl⟩
  · refine ⟨i, fun m hm => (he m hm).trans (h m), ?_⟩
    rw [← h i]
    exact hl
  · refine ⟨i, fun m hm => (he m hm).trans (h m).symm, ?_⟩
    rw [h i]
    exact hl

lemma cbLt_trichotomy (al bl : List ℚ) : cbLt al bl ∨ cbEq al bl ∨ cbLt bl al := by
  by_cases h : cbEq al bl
  · exact Or.inr (Or.inl h)
  · have hex : ∃ i, pad al i ≠ pad bl i := by
      unfold cbEq at h
      push_neg at h
      exact h
    have hne := Nat.find_spec hex
    have hmin : ∀ j, j < Nat.find hex → pad al j = pad bl j :=
      fun j hj => of_not_not (Nat.find_min hex hj)
    rcases lt_or_gt_of_ne hne with hlt | hgt
    · exact Or.inr (Or.inr ⟨Nat.find hex, fun j hj => (hmin j hj).symm, hlt⟩)
    · exact Or.inl ⟨Nat.find hex, hmin, hgt⟩

lemma charToNat_inj {a b : Char} (h : a.toNat = b.toNat) : a = b := by
  rcases a with ⟨⟨⟨na, ha⟩⟩, va⟩
  rcases b with ⟨⟨⟨nb, hb⟩⟩, vb⟩
  have hn : na = nb := h
  subst hn
  rfl

lemma clLt_asymm : ∀ l m : List Char, clLt l m = true → clLt m l = false := by
  intro l
  induction l with
  | nil => intro m h; cases m with
      | nil => exact absurd h (by simp [clLt])
      | cons b bs => rfl
  | cons a as ih =>
      intro m h
      cases m with
      | nil => exact absurd h (by simp [clLt])
      | cons b bs =>
          show (if b = a then clLt bs as else decide (b.toNat < a.toNat)) = false
          by_cases hab : a = b
          · rw [if_pos hab.symm]
            rw [show clLt (a :: as) (b :: bs) = clLt as bs by rw [clLt, if_pos hab]] at h
            exact ih bs h
          · rw [if_neg (fun hba => hab hba.symm)]
            rw [show clLt (a :: as) (b :: bs) = decide (a.toNat < b.toNat)
              by rw [clLt, if_neg hab]] at h
            simp only [decide_eq_true_eq] at h
            simpa using Nat.not_lt.mpr (Nat.le_of_lt h)

lemma clLt_trans : ∀ l m n : List Char,
    clLt l m = true → clLt m n = true → clLt l n = true := by
  intro l
  induction l with
  | nil =>
      intro m n h1 h2
      cases m with
      | nil => exact absurd h1 (by simp [clLt])
      | cons b bs =>
          cases n with
          | nil => exact absurd h2 (by simp [clLt])
          | cons c cs => rfl
  | cons a as ih =>
      intro m n h1 h2
      cases m with
      | nil => exact absurd h1 (by simp [clLt])
      | cons b bs =>
          cases n with
          | nil => exact absurd h2 (by simp [clLt])
          | cons c cs =>
              rw [show clLt (a :: as) (b :: bs) =
                (if a = b then clLt as bs else decide (a.toNat < b.toNat)) from rfl] at h1
              rw [show clLt (b :: bs) (c :: cs) =
                (if b = c then clLt bs cs else decide (b.toNat < c.toNat)) from rfl] at h2
              show (if a = c then clLt as cs else decide (a.toNat < c.toNat)) = true
              by_cases hab : a = b
              · rw [if_pos hab] at h1
                by_cases hbc : b = c
                · rw [if_pos hbc] at h2
                  rw [if_pos (hab.trans hbc)]
                  exact ih bs cs h1 h2
                · rw [if_neg hbc] at h2
                  rw [if_neg (fun hac => hbc (hab.symm.trans hac)), hab]
                  exact h2
              · rw [if_neg hab] at h1
                simp only [decide_eq_true_eq] at h1
                by_cases hbc : b = c
                · rw [if_pos hbc] at h2
                  rw [if_neg (fun hac => hab (hac.trans hbc.symm)), ← hbc]
                  simpa using h1
                · rw [if_neg hbc] at h2
                  simp only [decide_eq_true_eq] at h2
                  have hlt := Nat.lt_trans h1 h2
                  rw [if_neg (fun hac => absurd (hac ▸ hlt) (lt_irrefl _))]
                  simpa using hlt

lemma clLt_eq_of_not : ∀ l m : List Char,
    clLt l m = false → clLt m l = false → l = m := by
  intro l
  induction l with
  | nil =>
      intro m h1 _
      cases m with
      | nil => rfl
      | cons b bs => exact absurd h1 (by simp [clLt])
  | cons a as ih =>
      intro m h1 h2
      cases m with
      | nil => exact absurd h2 (by simp [clLt])
      | cons b bs =>
          rw [show clLt (a :: as) (b :: bs) =
            (if a = b then clLt as bs else decide (a.toNat < b.toNat)) from rfl] at h1
          rw [show clLt (b :: bs) (a :: as) =
            (if b = a then clLt bs as else decide (b.toNat < a.toNat)) from rfl] at h2
          by_cases hab : a = b
          · rw [if_pos hab] at h1
            rw [if_pos hab.symm] at h2
            rw [hab, ih bs h1 h2]
          · rw [if_neg hab] at h1
            rw [if_neg (fun hba => hab hba.symm)] at h2
            simp only [decide_eq_false_iff_not, Nat.not_lt] at h1 h2
            exact absurd (charToNat_inj (Nat.le_antisymm h2 h1)) hab

lemma strLt_asymm {a b : String} (h : strLt a b = true) : strLt b a = false :=
  clLt_asymm a.data b.data h

lemma strLt_trans {a b c : String} (h1 : strLt a b = true) (h2 : strLt b c = true) :
    strLt a c = true :=
  clLt_trans a.data b.data c.data h1 h2

lemma strLt_trichotomy (a b : String) :
    strLt a b = true ∨ a = b ∨ strLt b a = true := by
  by_cases h1 : strLt a b = true
  · exact Or.inl h1
  · by_cases h2 : strLt b a = true
    · exact Or.inr (Or.inr h2)
    · refine Or.inr (Or.inl ?_)
      have := clLt_eq_of_not a.data b.data (by simpa using h1) (by simpa using h2)
      cases a
      cases b
      exact congrArg String.mk this

lemma rowLt_asymm {a b : RRow} (h1 : rowLt a b) (h2 : rowLt b a) : False := by
  rcases h1 with h1 | ⟨et1, hs1⟩
  · rcases h2 with h2 | ⟨et2, -⟩
    · exact lt_asymm h1 h2
    · rw [et2] at h1; exact lt_irrefl _ h1
  · rcases h2 with h2 | ⟨-, hs2⟩
    · rw [et1] at h2; exact lt_irrefl _ h2
    · rcases hs1 with hs1 | ⟨es1, hc1⟩
      · rcases hs2 with hs2 | ⟨es2, -⟩
        · exact lt_asymm hs1 hs2
        · rw [es2] at hs1; exact lt_irrefl _ hs1
      · rcases hs2 with hs2 | ⟨-, hc2⟩
        · rw [es1] at hs2; exact lt_irrefl _ hs2
        · rcases hc1 with hc1 | ⟨ec1, hn1⟩
          · rcases hc2 with hc2 | ⟨ec2, -⟩
            · exact cbLt_asymm hc1 hc2
            · exact not_cbLt_of_cbEq ec2 hc1
          · rcases hc2 with hc2 | ⟨-, hn2⟩
            · exact not_cbLt_of_cbEq ec1 hc2
            · rw [strLt_asymm hn1] at hn2; exact Bool.false_ne_true hn2

/-- Comparison property of the strict weak order: anything below `a` is
below `b` or has `b` below `a`. -/
lemma rowLt_cmp {a c : RRow} (b : RRow) (h : rowLt c a) : rowLt c b ∨ rowLt b a := by
  rcases h with h | ⟨et, hs⟩
  · rcases lt_or_le b.rankTotal c.rankTotal with hb | hb
    · exact Or.inl (Or.inl hb)
    · exact Or.inr (Or.inl (lt_of_lt_of_le h hb))
  · rcases lt_trichotomy b.rankTotal c.rankTotal with hb | hb | hb
    · exact Or.inl (Or.inl hb)
    · rcases hs with hs | ⟨es, hc⟩
      · rcases lt_or_le c.rankSpend b.rankSpend with hx | hx
        · exact Or.inl (Or.inr ⟨hb.symm, Or.inl hx⟩)
        · exact Or.inr (Or.inr ⟨hb.trans et, Or.inl (lt_of_le_of_lt hx hs)⟩)
      · rcases lt_trichotomy b.rankSpend c.rankSpend with hx | hx | hx
        · exact Or.inr (Or.inr ⟨hb.trans et, Or.inl (hx.trans_eq es)⟩)
        · rcases hc with hc | ⟨ec, hn⟩
          · rcases cbLt_trichotomy c.countback b.countback with hy | hy | hy
            · exact Or.inl (Or.inr ⟨hb.symm, Or.inr ⟨hx.symm, Or.inl hy⟩⟩)
            · exact Or.inr (Or.inr ⟨hb.trans et,
                Or.inr ⟨hx.trans es, Or.inl ((cbLt_congr_left hy).mp hc)⟩⟩)
            · exact Or.inr (Or.inr ⟨hb.trans et,
                Or.inr ⟨hx.trans es, Or.inl (cbLt_trans hy hc)⟩⟩)
          · rcases cbLt_trichotomy c.countback b.countback with hy | hy | hy
            · exact Or.inl (Or.inr ⟨hb.symm, Or.inr ⟨hx.symm, Or.inl hy⟩⟩)
            · rcases strLt_trichotomy (pureNameOf b) (pureNameOf c) with hz | hz | hz
              · exact Or.inr (Or.inr ⟨hb.trans et, Or.inr ⟨hx.trans es,
                  Or.inr ⟨cbEq_trans (cbEq_symm hy) ec, strLt_trans hz hn⟩⟩⟩)
              · exact Or.inr (Or.inr ⟨hb.trans et, Or.inr ⟨hx.trans es,
                  Or.inr ⟨cbEq_trans (cbEq_symm hy) ec, hz ▸ hn⟩⟩⟩)
              · exact Or.inl (Or.inr ⟨hb.symm, Or.inr ⟨hx.symm, Or.inr ⟨hy, hz⟩⟩⟩)
            · exact Or.inr (Or.inr ⟨hb.trans et, Or.inr ⟨hx.trans es,
                Or.inl ((cbLt_congr_right ec).mp hy)⟩⟩)
        · exact Or.inl (Or.inr ⟨hb.symm, Or.inl hx⟩)
    · exact Or.inr (Or.inl (lt_of_le_of_lt (le_of_eq et.symm) hb))

lemma rowLe_trans {a b c : RRow} (h1 : ¬ rowLt b a) (h2 : ¬ rowLt c b) : ¬ rowLt c a :=
  fun h => (rowLt_cmp b h).elim h2 h1

lemma rowLt_of_flat {a b : RRow}
    (h : b.rankTotal < a.rankTotal
      ∨ (a.rankTotal = b.rankTotal ∧ a.rankSpend < b.rankSpend)
      ∨ (a.rankTotal = b.rankTotal ∧ a.rankSpend = b.rankSpend ∧
          ∃ i, (∀ j, j < i → pad a.countback j = pad b.countback j) ∧
            pad b.countback i < pad a.countback i)) : rowLt a b := by
  rcases h with h | ⟨e, h⟩ | ⟨e1, e2, h⟩
  · exact Or.inl h
  · exact Or.inr ⟨e, Or.inl h⟩
  · exact Or.inr ⟨e1, Or.inr ⟨e2, Or.inl h⟩⟩

lemma pureCmp_eq_neg_iff (a b : RRow) : pureCmp a b = -1 ↔ rowLt a b := by
  unfold pureCmp
  rcases compare_rows_mem a b with hc | hc | hc
  · rw [hc]
    exact iff_of_true rfl (rowLt_of_flat ((compare_rows_spec a b).1.mp hc))
  · rw [hc]
    obtain ⟨et, es, ecb⟩ := (compare_rows_spec a b).2.mp hc
    show (if (0 : Int) ≠ 0 then (0 : Int)
          else if strLt (pureNameOf a) (pureNameOf b) = true then -1 else 1) = -1 ↔ _
    rw [if_neg (by simp)]
    by_cases hn : strLt (pureNameOf a) (pureNameOf b) = true
    · rw [if_pos hn]
      exact iff_of_true rfl (Or.inr ⟨et, Or.inr ⟨es, Or.inr ⟨ecb, hn⟩⟩⟩)
    · rw [if_neg hn]
      refine iff_of_false (by decide) ?_
      rintro (h | ⟨-, h | ⟨-, h | ⟨-, h⟩⟩⟩)
      · rw [et] at h; exact lt_irrefl _ h
      · rw [es] at h; exact lt_irrefl _ h
      · exact not_cbLt_of_cbEq (cbEq_symm ecb) h
      · exact hn h
  · rw [hc]
    show (if (1 : Int) ≠ 0 then (1 : Int)
          else if strLt (pureNameOf a) (pureNameOf b) = true then -1 else 1) = -1 ↔ _
    rw [if_pos (by decide)]
    refine iff_of_false (by decide) ?_
    rintro (h | ⟨et, h | ⟨es, h | ⟨ecb, -⟩⟩⟩)
    · have : compare_rows a b = -1 := (compare_rows_spec a b).1.mpr (Or.inl h)
      rw [hc] at this; exact absurd this (by decide)
    · have : compare_rows a b = -1 :=
        (compare_rows_spec a b).1.mpr (Or.inr (Or.inl ⟨et, h⟩))
      rw [hc] at this; exact absurd this (by decide)
    · have : compare_rows a b = -1 :=
        (compare_rows_spec a b).1.mpr (Or.inr (Or.inr ⟨et, es, h⟩))
      rw [hc] at this; exact absurd this (by decide)
    · have : compare_rows a b = 0 := (compare_rows_spec a b).2.mpr ⟨et, es, ecb⟩
      rw [hc] at this; exact absurd this (by decide)

lemma pureCmp_mem (a b : RRow) : pureCmp a b = -1 ∨ pureCmp a b = 1 := by
  unfold pureCmp
  rcases compare_rows_mem a b with hc | hc | hc <;> rw [hc]
  · left; rfl
  · show (if (0 : Int) ≠ 0 then (0 : Int)
          else if strLt (pureNameOf a) (pureNameOf b) = true then -1 else 1) = -1 ∨ _
    rw [if_neg (by simp)]
    by_cases hn : strLt (pureNameOf a) (pureNameOf b) = true
    · rw [if_pos hn]; left; rfl
    · rw [if_neg hn]; right; rfl
  · right; rfl

/-! ### Generic facts about the stable insertion sort -/

lemma insertBy_perm {α : Type} (lt : α → α → Bool) (x : α) (l : List α) :
    (insertBy lt x l).Perm (x :: l) := by
  induction l with
  | nil => exact List.Perm.refl _
  | cons y ys ih =>
      show (if lt x y then x :: y :: ys else y :: insertBy lt x ys).Perm (x :: y :: ys)
      split_ifs
      · exact List.Perm.refl _
      · exact (List.Perm.cons y ih).trans (List.Perm.swap x y ys)

lemma foldl_insertBy_perm {α : Type} (lt : α → α → Bool) :
    ∀ (l acc : List α),
      (l.foldl (fun acc x => insertBy lt x acc) acc).Perm (acc ++ l) := by
  intro l
  induction l with
  | nil => intro acc; simp
  | cons x xs ih =>
      intro acc
      rw [List.foldl_cons]
      have h1 := ih (insertBy lt x acc)
      have h2 := (insertBy_perm lt x acc).append_right xs
      exact h1.trans (h2.trans List.perm_middle.symm)

lemma sortBy_perm {α : Type} (lt : α → α → Bool) (l : List α) :
    (sortBy lt l).Perm l := by
  simpa using foldl_insertBy_perm lt l []

lemma pairwise_insertBy {α : Type} {lt : α → α → Bool} {le : α → α → Prop}
    (h1 : ∀ a b, lt a b = true → le a b)
    (h2 : ∀ a b, lt a b = false → le b a)
    (htr : ∀ a b c, le a b → le b c → le a c)
    (x : α) : ∀ l : List α, l.Pairwise le → (insertBy lt x l).Pairwise le := by
  intro l
  induction l with
  | nil =>
      intro _
      show ([x] : List α).Pairwise le
      exact List.pairwise_cons.mpr ⟨fun z hz => absurd hz (by simp), List.Pairwise.nil⟩
  | cons y ys ih =>
      intro hp
      obtain ⟨hy, hys⟩ := List.pairwise_cons.mp hp
      show (if lt x y then x :: y :: ys else y :: insertBy lt x ys).Pairwise le
      by_cases hxy : lt x y
      · rw [if_pos hxy]
        refine List.pairwise_cons.mpr ⟨?_, hp⟩
        intro z hz
        rcases List.mem_cons.mp hz with rfl | hz2
        · exact h1 _ _ hxy
        · exact htr _ _ _ (h1 _ _ hxy) (hy z hz2)
      · rw [if_neg hxy]
        have hxy' : lt x y = false := by
          revert hxy; cases lt x y <;> simp
        refine List.pairwise_cons.mpr ⟨?_, ih hys⟩
        intro z hz
        rcases List.mem_cons.mp ((insertBy_perm lt x ys).mem_iff.mp hz) with rfl | hz2
        · exact h2 _ _ hxy'
        · exact hy z hz2

lemma pairwise_sortBy {α : Type} {lt : α → α → Bool} {le : α → α → Prop}
    (h1 : ∀ a b, lt a b = true → le a b)
    (h2 : ∀ a b, lt a b = false → le b a)
    (htr : ∀ a b c, le a b → le b c → le a c)
    (l : List α) : (sortBy lt l).Pairwise le := by
  have key : ∀ (l acc : List α), acc.Pairwise le →
      (l.foldl (fun acc x => insertBy lt x acc) acc).Pairwise le := by
    intro l
    induction l with
    | nil => intro acc h; exact h
    | cons x xs ih =>
        intro acc h
        exact ih _ (pairwise_insertBy h1 h2 htr x acc h)
  exact key l [] (List.Pairwise.nil)

/-! ### From the fallible sort to the pure sort -/

lemma exceptBind_ok {α β : Type} (a : α) (f : α → Except Unit β) :
    (Except.ok a >>= f) = f a := rfl

lemma cmpWithName_ok {a b : RRow} (ha : NameOk a) (hb : NameOk b) :
    cmpWithName a b = .ok (pureCmp a b) := by
  obtain ⟨s, hs⟩ := ha
  obtain ⟨t, ht⟩ := hb
  have hplay : pyLtVal (playerVal a) (playerVal b) = .ok (strLt s t) := by
    rw [hs, ht]; rfl
  have hname : pureNameOf a = s ∧ pureNameOf b = t := by
    constructor <;> unfold pureNameOf
    · rw [hs]
    · rw [ht]
  unfold cmpWithName pureCmp
  by_cases hc : compare_rows a b ≠ 0
  · rw [if_pos hc, if_pos hc]
    rfl
  · simp only [if_neg hc, hplay, exceptBind_ok, hname.1, hname.2]
    by_cases hst : strLt s t = true
    · simp [hst]
      rfl
    · simp [hst]
      rfl

lemma insertRanked_ok {x : RRow} (hx : NameOk x) :
    ∀ l : List RRow, (∀ r ∈ l, NameOk r) →
      insertRanked x l = .ok (insertBy (fun a b => pureCmp a b = -1) x l) := by
  intro l
  induction l with
  | nil => intro _; rfl
  | cons y ys ih =>
      intro hl
      have hy : NameOk y := hl y (List.mem_cons_self _ _)
      have hys : ∀ r ∈ ys, NameOk r := fun r hr => hl r (List.mem_cons_of_mem _ hr)
      show (cmpWithName x y >>= fun c =>
          if c < 0 then pure (x :: y :: ys)
          else insertRanked x ys >>= fun zs => pure (y :: zs)) = _
      rw [cmpWithName_ok hx hy]
      show (if pureCmp x y < 0 then (pure (x :: y :: ys) : Except Unit _)
            else insertRanked x ys >>= fun zs => pure (y :: zs)) = _
      rcases pureCmp_mem x y with hc | hc <;> rw [hc]
      · rw [if_pos (by decide)]
        show _ = .ok (if (pureCmp x y = -1 : Bool) then x :: y :: ys
          else y :: insertBy (fun a b => pureCmp a b = -1) x ys)
        rw [hc]
        rfl
      · rw [if_neg (by decide), ih hys]
        show _ = .ok (if (pureCmp x y = -1 : Bool) then x :: y :: ys
          else y :: insertBy (fun a b => pureCmp a b = -1) x ys)
        rw [hc]
        rfl

lemma sortRanked_ok_go :
    ∀ (l acc : List RRow), (∀ r ∈ l, NameOk r) → (∀ r ∈ acc, NameOk r) →
      l.foldlM (fun acc x => insertRanked x acc) acc =
        .ok (l.foldl (fun acc x => insertBy (fun a b => pureCmp a b = -1) x acc) acc) := by
  intro l
  induction l with
  | nil => intro acc _ _; rfl
  | cons x xs ih =>
      intro acc hl hacc
      have hx : NameOk x := hl x (List.mem_cons_self _ _)
      have hxs : ∀ r ∈ xs, NameOk r := fun r hr => hl r (List.mem_cons_of_mem _ hr)
      rw [List.foldlM_cons, insertRanked_ok hx acc hacc]
      have hacc' : ∀ r ∈ insertBy (fun a b => pureCmp a b = -1) x acc, NameOk r := by
        intro r hr
        rcases List.mem_cons.mp
            ((insertBy_perm (fun a b => pureCmp a b = -1) x acc).mem_iff.mp hr) with rfl | hr2
        · exact hx
        · exact hacc r hr2
      show ((pure (insertBy (fun a b => pureCmp a b = -1) x acc) : Except Unit _) >>=
          fun acc' => xs.foldlM (fun acc x => insertRanked x acc) acc') = _
      rw [show ((pure (insertBy (fun a b => pureCmp a b = -1) x acc) : Except Unit _) >>=
          fun acc' => xs.foldlM (fun acc x => insertRanked x acc) acc') =
            xs.foldlM (fun acc x => insertRanked x acc)
              (insertBy (fun a b => pureCmp a b = -1) x acc) from rfl]
      rw [ih _ hxs hacc']
      rfl

lemma sortRanked_ok {l : List RRow} (hl : ∀ r ∈ l, NameOk r) :
    sortRanked l = .ok (sortP l) := by
  have := sortRanked_ok_go l [] hl (by intro r hr; cases hr)
  exact this

lemma exceptPure_eq {α : Type} (a : α) : (pure a : Except Unit α) = Except.ok a := rfl

lemma exceptBind_error {α β : Type} (f : α → Except Unit β) :
    ((Except.error () : Except Unit α) >>= f) = Except.error () := rfl

lemma insertRanked_perm (x : RRow) :
    ∀ {l out : List RRow}, insertRanked x l = .ok out → out.Perm (x :: l) := by
  intro l
  induction l with
  | nil =>
      intro out h
      injection h with h'
      subst h'
      exact List.Perm.refl _
  | cons y ys ih =>
      intro out h
      rw [show insertRanked x (y :: ys) = (cmpWithName x y >>= fun c =>
          if c < 0 then pure (x :: y :: ys)
          else insertRanked x ys >>= fun zs => pure (y :: zs)) from rfl] at h
      cases hc : cmpWithName x y with
      | error e => rw [hc] at h; cases e; rw [exceptBind_error] at h; exact Except.noConfusion h
      | ok c =>
          rw [hc, exceptBind_ok] at h
          by_cases hlt : c < 0
          · rw [if_pos hlt, exceptPure_eq] at h
            injection h with h'
            subst h'
            exact List.Perm.refl _
          · rw [if_neg hlt] at h
            cases hz : insertRanked x ys with
            | error e =>
                rw [hz] at h; cases e; rw [exceptBind_error] at h
                exact Except.noConfusion h
            | ok zs =>
                rw [hz, exceptBind_ok, exceptPure_eq] at h
                injection h with h'
                subst h'
                exact ((ih hz).cons y).trans (List.Perm.swap x y ys)

lemma sortRanked_go_perm :
    ∀ (l acc : List RRow) {s : List RRow},
      l.foldlM (fun acc x => insertRanked x acc) acc = .ok s → s.Perm (acc ++ l) := by
  intro l
  induction l with
  | nil =>
      intro acc s h
      rw [List.foldlM_nil, exceptPure_eq] at h
      injection h with h'
      subst h'
      simp
  | cons x xs ih =>
      intro acc s h
      rw [List.foldlM_cons] at h
      cases hx : insertRanked x acc with
      | error e => rw [hx] at h; cases e; rw [exceptBind_error] at h; exact Except.noConfusion h
      | ok acc2 =>
          rw [hx, exceptBind_ok] at h
          exact (ih acc2 h).trans
            (((insertRanked_perm x hx).append_right xs).trans List.perm_middle.symm)

lemma sortRanked_perm {l s : List RRow} (h : sortRanked l = .ok s) : s.Perm l := by
  simpa using sortRanked_go_perm l [] h

/-! ### The annotation walk -/

lemma annotateLoop_cons (ks : List TieKey) (gm : List (TieKey × ℕ)) (tid idx : ℕ)
    (prev : Option RankedRow) (r : RRow) (rest : List RRow) :
    annotateLoop ks gm tid idx prev (r :: rest) =
      annotRow ks gm tid prev idx r ::
        annotateLoop ks (gmStep ks gm tid (key_for r)).1 (gmStep ks gm tid (key_for r)).2
          (idx + 1) (some (annotRow ks gm tid prev idx r)) rest := rfl

lemma annotRow_row (ks : List TieKey) (gm : List (TieKey × ℕ)) (tid : ℕ)
    (prev : Option RankedRow) (idx : ℕ) (r : RRow) :
    (annotRow ks gm tid prev idx r).row = r := rfl

lemma annotRow_rank (ks : List TieKey) (gm : List (TieKey × ℕ)) (tid : ℕ)
    (prev : Option RankedRow) (idx : ℕ) (r : RRow) :
    (annotRow ks gm tid prev idx r).rank = rankStep prev idx (key_for r) := rfl

lemma rankStep_none (idx : ℕ) (k : TieKey) : rankStep none idx k = 1 := rfl

lemma rankStep_some (p : RankedRow) (idx : ℕ) (k : TieKey) :
    rankStep (some p) idx k = if key_for p.row = k then p.rank else idx + 1 := rfl

lemma annotateLoop_length (ks : List TieKey) :
    ∀ (l : List RRow) (gm : List (TieKey × ℕ)) (tid idx : ℕ) (prev : Option RankedRow),
      (annotateLoop ks gm tid idx prev l).length = l.length := by
  intro l
  induction l with
  | nil => intro gm tid idx prev; rfl
  | cons r rest ih =>
      intro gm tid idx prev
      rw [annotateLoop_cons]
      simp only [List.length_cons, ih]

lemma annotateLoop_map_row (ks : List TieKey) :
    ∀ (l : List RRow) (gm : List (TieKey × ℕ)) (tid idx : ℕ) (prev : Option RankedRow),
      (annotateLoop ks gm tid idx prev l).map RankedRow.row = l := by
  intro l
  induction l with
  | nil => intro gm tid idx prev; rfl
  | cons r rest ih =>
      intro gm tid idx prev
      rw [annotateLoop_cons]
      simp only [List.map_cons, ih, annotRow_row]

lemma rnkAt_cons (x : RankedRow) (t : List RankedRow) (i : ℕ) :
    rnkAt (x :: t) (i + 1) = rnkAt t i := rfl

lemma keyAt_cons (x : RankedRow) (t : List RankedRow) (i : ℕ) :
    keyAt (x :: t) (i + 1) = keyAt t i := rfl

lemma rnkAt_zero (x : RankedRow) (t : List RankedRow) : rnkAt (x :: t) 0 = x.rank := rfl

lemma keyAt_zero (x : RankedRow) (t : List RankedRow) : keyAt (x :: t) 0 = key_for x.row := rfl

lemma annotateLoop_first_rank (ks : List TieKey) (gm : List (TieKey × ℕ)) (tid idx : ℕ)
    (r : RRow) (rest : List RRow) :
    rnkAt (annotateLoop ks gm tid idx none (r :: rest)) 0 = 1 := by
  rw [annotateLoop_cons, rnkAt_zero]
  rfl

lemma annotateLoop_rank_step (ks : List TieKey) :
    ∀ (l : List RRow) (gm : List (TieKey × ℕ)) (tid idx : ℕ) (prev : Option RankedRow)
      (i : ℕ), i + 1 < l.length →
      rnkAt (annotateLoop ks gm tid idx prev l) (i + 1) =
        (if keyAt (annotateLoop ks gm tid idx prev l) (i + 1) =
            keyAt (annotateLoop ks gm tid idx prev l) i
         then rnkAt (annotateLoop ks gm tid idx prev l) i
         else idx + i + 2) := by
  intro l
  induction l with
  | nil => intro gm tid idx prev i hi; exact absurd hi (by simp)
  | cons r rest ih =>
      intro gm tid idx prev i hi
      cases i with
      | zero =>
          cases rest with
          | nil => exact absurd hi (by simp)
          | cons r2 rest2 =>
              rw [annotateLoop_cons, annotateLoop_cons]
              simp only [rnkAt_cons, rnkAt_zero, keyAt_cons, keyAt_zero, annotRow_rank,
                annotRow_row, rankStep_some]
              by_cases hk : key_for r2 = key_for r
              · rw [if_pos hk.symm, if_pos hk]
              · rw [if_neg (fun h => hk h.symm), if_neg hk]
      | succ i' =>
          rw [annotateLoop_cons]
          simp only [rnkAt_cons, keyAt_cons]
          have := ih (gmStep ks gm tid (key_for r)).1 (gmStep ks gm tid (key_for r)).2
            (idx + 1) (some (annotRow ks gm tid prev idx r)) i' (by simpa using hi)
          rw [show idx + (i' + 1) + 2 = idx + 1 + i' + 2 by omega]
          exact this

lemma rank_rows_ok_elim {l : List RRow} {out : List RankedRow}
    (h : rank_rows l = .ok out) :
    ∃ s, sortRanked l = .ok s ∧ out = annotateLoop (s.map key_for) [] 0 0 none s := by
  unfold rank_rows at h
  cases hs : sortRanked l with
  | error e => cases e; rw [hs, exceptBind_error] at h; exact Except.noConfusion h
  | ok s =>
      rw [hs, exceptBind_ok, exceptPure_eq] at h
      injection h with h'
      exact ⟨s, rfl, h'.symm⟩

/-- The tie-run consequence of the walk facts alone. -/
lemma rank_run_of_walk (out : List RankedRow)
    (h0 : 0 < out.length → rnkAt out 0 = 1)
    (hstep : ∀ i, i + 1 < out.length →
      rnkAt out (i + 1) = if keyAt out (i + 1) = keyAt out i then rnkAt out i else i + 2)
    (p k : ℕ) (hk : k ≠ 0) (hpk : p + k ≤ out.length)
    (hgroup : ∀ i, p < i → i < p + k → keyAt out i = keyAt out p)
    (hstart : p = 0 ∨ keyAt out p ≠ keyAt out (p - 1)) :
    (∀ i, p ≤ i → i < p + k → rnkAt out i = p + 1)
      ∧ (p + k < out.length → keyAt out (p + k) ≠ keyAt out (p + k - 1) →
          rnkAt out (p + k) = p + k + 1) := by
  have hbase : rnkAt out p = p + 1 := by
    rcases hstart with rfl | hne
    · exact h0 (by omega)
    · rcases p with - | m
      · exact h0 (by omega)
      · have := hstep m (by omega)
        rw [if_neg (by simpa using hne)] at this
        rw [this]
  have hrun : ∀ d, p + d < p + k → rnkAt out (p + d) = p + 1 := by
    intro d
    induction d with
    | zero => intro _; simpa using hbase
    | succ e ihe =>
        intro hd
        have he : p + e < p + k := by omega
        have hkey1 : keyAt out (p + e + 1) = keyAt out p := hgroup _ (by omega) (by omega)
        have hkey2 : keyAt out (p + e) = keyAt out p := by
          rcases Nat.eq_zero_or_pos e with rfl | hpos
          · simp
          · exact hgroup _ (by omega) (by omega)
        have := hstep (p + e) (by omega)
        rw [if_pos (hkey1.trans hkey2.symm)] at this
        rw [show p + (e + 1) = p + e + 1 by omega, this, ihe he]
  refine ⟨fun i hpi hik => ?_, fun hlt hne => ?_⟩
  · have : i = p + (i - p) := by omega
    rw [this]
    exact hrun (i - p) (by omega)
  · obtain ⟨k', rfl⟩ : ∃ k', k = k' + 1 := ⟨k - 1, by omega⟩
    have := hstep (p + k') (by omega)
    rw [if_neg (by simpa [show p + (k' + 1) - 1 = p + k' by omega] using hne)] at this
    rw [show p + (k' + 1) = p + k' + 1 by omega, this]

/-- C2: after sorting by the full comparator the first record gets rank
1; each subsequent record inherits the immediately preceding record's
rank exactly when their tie-keys (each value rounded to 6 decimal
places) agree and otherwise gets its 1-based position; hence a `k`-way
run of equal tie-keys starting at 0-based position `p` (1-based
position `p + 1`) gives all its members rank `p + 1`, and the next
distinct entrant gets rank `p + k + 1`. -/
theorem rank_rows_rank_assignment (l : List RRow) (out : List RankedRow)
    (h : rank_rows l = .ok out) :
    (0 < out.length → rnkAt out 0 = 1)
    ∧ (∀ i, i + 1 < out.length →
        rnkAt out (i + 1) = if keyAt out (i + 1) = keyAt out i then rnkAt out i else i + 2)
    ∧ (∀ p k, k ≠ 0 → p + k ≤ out.length →
        (∀ i, p < i → i < p + k → keyAt out i = keyAt out p) →
        (p = 0 ∨ keyAt out p ≠ keyAt out (p - 1)) →
        (∀ i, p ≤ i → i < p + k → rnkAt out i = p + 1)
          ∧ (p + k < out.length → keyAt out (p + k) ≠ keyAt out (p + k - 1) →
              rnkAt out (p + k) = p + k + 1)) := by
  obtain ⟨s, hs, rfl⟩ := rank_rows_ok_elim h
  have hlen : (annotateLoop (s.map key_for) [] 0 0 none s).length = s.length :=
    annotateLoop_length _ _ _ _ _ _
  have h0 : 0 < (annotateLoop (s.map key_for) [] 0 0 none s).length →
      rnkAt (annotateLoop (s.map key_for) [] 0 0 none s) 0 = 1 := by
    intro hpos
    cases s with
    | nil =>
        rw [show annotateLoop (List.map key_for ([] : List RRow)) [] 0 0 none [] = []
          from rfl] at hpos
        simp at hpos
    | cons r rest => exact annotateLoop_first_rank _ _ _ _ _ _
  have hstep : ∀ i, i + 1 < (annotateLoop (s.map key_for) [] 0 0 none s).length →
      rnkAt (annotateLoop (s.map key_for) [] 0 0 none s) (i + 1) =
        if keyAt (annotateLoop (s.map key_for) [] 0 0 none s) (i + 1) =
            keyAt (annotateLoop (s.map key_for) [] 0 0 none s) i
        then rnkAt (annotateLoop (s.map key_for) [] 0 0 none s) i
        else i + 2 := by
    intro i hi
    have := annotateLoop_rank_step (s.map key_for) s [] 0 0 none i (by omega)
    rw [show 0 + i + 2 = i + 2 by omega] at this
    exact this
  exact ⟨h0, hstep, fun p k hk hpk hgroup hstart =>
    rank_run_of_walk _ h0 hstep p k hk hpk hgroup hstart⟩

/-- C2 witness: on a three-way tie at the top, the ranks are 1, 1, 1, 4. -/
theorem rank_rows_rank_assignment_witness :
    rnkAt tieRankOut 0 = 1 ∧ rnkAt tieRankOut 1 = 1 ∧ rnkAt tieRankOut 2 = 1 ∧
      rnkAt tieRankOut 3 = 4 := by
  have h := rank_rows_rank_assignment tieRankRows tieRankOut (by decide)
  have hgroup : ∀ i, 0 < i → i < 0 + 3 → keyAt tieRankOut i = keyAt tieRankOut 0 := by
    intro i h1 h2
    have : i = 1 ∨ i = 2 := by omega
    rcases this with rfl | rfl <;> decide
  have h3 := h.2.2 0 3 (by decide) (by decide) hgroup (Or.inl rfl)
  refine ⟨h.1 (by decide), ?_, ?_, ?_⟩
  · exact h3.1 1 (by omega) (by omega)
  · exact h3.1 2 (by omega) (by omega)
  · exact h3.2 (by decide) (by decide)

/-! ### Record-count preservation (claim C4) -/

lemma normalize_rows_length (rows : List RawRow) :
    (normalize_rows rows).length = rows.length - 1 := by
  cases rows with
  | nil => rfl
  | cons hr rest => simp [normalize_rows]

lemma run_some (p : Pkg) :
    run (some p) = (parse_xlsx_to_rows p >>= fun rows =>
      let norm := normalize_rows rows
      if norm = [] then Except.error ()
      else
        let headers := (norm.headD []).map Prod.fst
        let round_cols := roundColsOf headers norm
        let scored := norm.map (scoreRecord round_cols)
        let total_col := totalCol headers
        let spend_col := headers.find? isSpendHeader
        let rrows := scored.map (buildRRow total_col spend_col round_cols)
        let final : List OutRow :=
          match rank_rows rrows with
          | .ok out => out.map (fun r => ⟨r.row, some (r.rank, r.tieGroup, r.tieHighlight)⟩)
          | .error _ => rrows.map (fun r => ⟨r, none⟩)
        Except.ok ⟨final, final, final.length, round_cols⟩) := rfl

lemma rank_rows_length {l : List RRow} {out : List RankedRow}
    (h : rank_rows l = .ok out) : out.length = l.length := by
  obtain ⟨s, hs, rfl⟩ := rank_rows_ok_elim h
  rw [annotateLoop_length]
  exact (sortRanked_perm hs).length_eq

/-- C4: normalization yields one record per row after the header
(`length - 1` over `ℕ`); scoring maps over the records, preserving
count; a successful ranking returns a permutation of its input rows;
and a successful run reports and writes exactly one output record per
input entrant row. -/
theorem pipeline_preserves_record_count :
    (∀ rows : List RawRow, (normalize_rows rows).length = rows.length - 1)
    ∧ (∀ (round_cols : List String) (norm : List Record),
        (norm.map (scoreRecord round_cols)).length = norm.length)
    ∧ (∀ (l : List RRow) (out : List RankedRow), rank_rows l = .ok out →
        (out.map RankedRow.row).Perm l)
    ∧ (∀ (p : Pkg) (rows : List RawRow) (res : RunResult),
        parse_xlsx_to_rows p = .ok rows → run (some p) = .ok res →
        res.rowCount = rows.length - 1 ∧ res.csvRows.length = rows.length - 1
          ∧ res.jsonRows.length = rows.length - 1) := by
  refine ⟨normalize_rows_length, fun round_cols norm => List.length_map _ _,
    fun l out h => ?_, fun p rows res hparse hrun => ?_⟩
  · obtain ⟨s, hs, rfl⟩ := rank_rows_ok_elim h
    rw [annotateLoop_map_row]
    exact sortRanked_perm hs
  · rw [run_some, hparse, exceptBind_ok] at hrun
    by_cases hnil : normalize_rows rows = []
    · rw [if_pos hnil] at hrun
      exact Except.noConfusion hrun
    · rw [if_neg hnil] at hrun
      injection hrun with hrun
      subst hrun
      have hfinal : ∀ (rc ro : List String) (tc sc : Option String),
          (match rank_rows ((normalize_rows rows).map
            (scoreRecord rc) |>.map (buildRRow tc sc ro)) with
          | .ok out => out.map (fun (r : RankedRow) =>
              (⟨r.row, some (r.rank, r.tieGroup, r.tieHighlight)⟩ : OutRow))
          | .error _ => ((normalize_rows rows).map (scoreRecord rc) |>.map
              (buildRRow tc sc ro)).map (fun (r : RRow) => (⟨r, none⟩ : OutRow))).length =
            (normalize_rows rows).length := by
        intro rc ro tc sc
        cases hr : rank_rows ((normalize_rows rows).map (scoreRecord rc) |>.map
            (buildRRow tc sc ro)) with
        | ok out => simp [rank_rows_length hr]
        | error e => simp
      refine ⟨?_, ?_, ?_⟩ <;>
        simp only [hfinal _ _ _ _, normalize_rows_length]

/-- C4 witness: the demo workbook has two entrant rows and the run
reports and writes two records. -/
theorem pipeline_preserves_record_count_witness :
    (normalize_rows [[("A", some "Pos")], [("A", some "1")]]).length = 1 ∧
    (∃ res, run (some demoPkg) = .ok res ∧ res.rowCount = 2 ∧ res.csvRows.length = 2 ∧
      res.jsonRows.length = 2) := by
  have h := pipeline_preserves_record_count
  refine ⟨h.1 _, ?_⟩
  cases hr : run (some demoPkg) with
  | error e => cases e; exact absurd hr (by decide)
  | ok res =>
      have := h.2.2.2 demoPkg
        [[("A", some "Player"), ("B", some "R01"), ("C", some "R02"), ("D", some "Total"),
          ("E", some "Spent ($m)")],
         [("A", some "Abe"), ("B", some "10"), ("C", some "20"), ("D", some "30"),
          ("E", some "4.5")],
         [("A", some "Bea"), ("B", some "25"), ("C", some "5"), ("D", some "30"),
          ("E", some "4.0")]] res (by decide) hr
      exact ⟨res, rfl, this.1, this.2.1, this.2.2⟩

/-! ### Cell normalisation (claim C5) -/

lemma digitsOnly_iff (l : List Char) :
    digitsOnly l = true ↔ l ≠ [] ∧ ∀ c ∈ l, c.isDigit = true := by
  unfold digitsOnly
  cases l with
  | nil => simp
  | cons c cs => simp [List.all_eq_true]

lemma takeWhile_digits (fp : List Char) :
    ∀ ip : List Char, (∀ c ∈ ip, c.isDigit = true) →
      (ip ++ '.' :: fp).takeWhile Char.isDigit = ip ∧
        (ip ++ '.' :: fp).dropWhile Char.isDigit = '.' :: fp := by
  intro ip
  induction ip with
  | nil =>
      intro _
      constructor
      · simp [List.takeWhile]
      · simp [List.dropWhile]
  | cons c cs ih =>
      intro hip
      have hc : c.isDigit = true := hip c (List.mem_cons_self _ _)
      have h2 := ih (fun d hd => hip d (List.mem_cons_of_mem _ hd))
      constructor
      · simp [List.takeWhile_cons, hc, h2.1]
      · simp [List.dropWhile_cons, hc, h2.2]

lemma decimalParts_eq_some_iff (l ip fp : List Char) :
    decimalParts l = some (ip, fp) ↔
      (l = ip ++ '.' :: fp ∧ ip ≠ [] ∧ fp ≠ [] ∧ (∀ c ∈ ip, c.isDigit = true) ∧
        ∀ c ∈ fp, c.isDigit = true) := by
  constructor
  · intro h
    unfold decimalParts at h
    rw [List.span_eq_take_drop] at h
    cases hd : l.dropWhile Char.isDigit with
    | nil => rw [hd] at h; exact absurd h (by simp)
    | cons d rest =>
        rw [hd] at h
        dsimp only at h
        by_cases hcond : d = '.' ∧ l.takeWhile Char.isDigit ≠ [] ∧ digitsOnly rest = true
        · rw [if_pos hcond] at h
          injection h with h'
          obtain ⟨h1, h2⟩ := Prod.mk.inj h'
          subst h1
          subst h2
          obtain ⟨hdot, hne, hdig⟩ := hcond
          subst hdot
          obtain ⟨hfne, hfdig⟩ := (digitsOnly_iff _).mp hdig
          have hl : l = List.takeWhile Char.isDigit l ++ '.' :: rest := by
            conv_lhs => rw [← List.takeWhile_append_dropWhile (p := Char.isDigit) (l := l)]
            rw [hd]
          exact ⟨hl, hne, hfne, fun c hc => List.mem_takeWhile_imp hc, hfdig⟩
        · rw [if_neg hcond] at h
          exact absurd h (by simp)
  · rintro ⟨rfl, hipne, hfpne, hipdig, hfpdig⟩
    unfold decimalParts
    rw [List.span_eq_take_drop, (takeWhile_digits fp ip hipdig).1,
      (takeWhile_digits fp ip hipdig).2]
    dsimp only
    rw [if_pos ⟨rfl, hipne, (digitsOnly_iff fp).mpr ⟨hfpne, hfpdig⟩⟩]

lemma matchIntLit_iff (t : String) : matchIntLit t = true ↔ IntShape t := by
  unfold matchIntLit IntShape
  cases hd : t.data with
  | nil =>
      constructor
      · intro h; exact absurd h (by simp)
      · rintro ⟨ds, hne, -, h | h⟩
        · exact absurd h.symm hne
        · exact absurd h (by simp)
  | cons c rest =>
      dsimp only
      by_cases hc : c = '-'
      · subst hc
        rw [if_pos rfl, digitsOnly_iff]
        constructor
        · rintro ⟨hne, hall⟩
          exact ⟨rest, hne, hall, Or.inr rfl⟩
        · rintro ⟨ds, hne, hall, h | h⟩
          · exact absurd (hall '-' (h ▸ List.mem_cons_self _ _)) (by decide)
          · injection h with h1 h2
            subst h2
            exact ⟨hne, hall⟩
      · rw [if_neg hc, digitsOnly_iff]
        constructor
        · rintro ⟨-, hall⟩
          exact ⟨c :: rest, by simp, hall, Or.inl rfl⟩
        · rintro ⟨ds, hne, hall, h | h⟩
          · subst h
            exact ⟨by simp, hall⟩
          · injection h with h1 h2
            exact absurd h1 hc

lemma parseFloatLit_none_of_not_shape {t : String} (h : ¬ FloatShape t) :
    parseFloatLit t = none := by
  unfold parseFloatLit
  cases hd : t.data with
  | nil => rfl
  | cons c rest =>
      dsimp only
      by_cases hc : c = '-'
      · subst hc
        rw [if_pos rfl]
        cases hp : decimalParts rest with
        | none => rfl
        | some p =>
            obtain ⟨hdec, hipne, hfpne, hipdig, hfpdig⟩ :=
              (decimalParts_eq_some_iff rest p.1 p.2).mp (by rw [hp])
            exact absurd ⟨p.1, p.2, hipne, hfpne, hipdig, hfpdig,
              Or.inr (by rw [hd, hdec])⟩ h
      · rw [if_neg hc]
        cases hp : decimalParts (c :: rest) with
        | none => rfl
        | some p =>
            obtain ⟨hdec, hipne, hfpne, hipdig, hfpdig⟩ :=
              (decimalParts_eq_some_iff (c :: rest) p.1 p.2).mp (by rw [hp])
            exact absurd ⟨p.1, p.2, hipne, hfpne, hipdig, hfpdig,
              Or.inl (by rw [hd, hdec])⟩ h

lemma not_intShape_of_decimal {t : String} {ip fp : List Char}
    (hip : ∀ c ∈ ip, c.isDigit = true)
    (h : t.data = ip ++ '.' :: fp ∨ t.data = '-' :: (ip ++ '.' :: fp)) :
    matchIntLit t = false := by
  by_cases hm : matchIntLit t = true
  · obtain ⟨ds, -, hall, hds | hds⟩ := (matchIntLit_iff t).mp hm
    · rcases h with h | h
      · rw [h] at hds
        have : ('.' : Char).isDigit = true := hall '.' (hds ▸ (by simp))
        exact absurd this (by decide)
      · rw [h] at hds
        have : ('-' : Char).isDigit = true := hall '-' (hds ▸ List.mem_cons_self _ _)
        exact absurd this (by decide)
    · rcases h with h | h
      · rw [h] at hds
        cases ip with
        | nil =>
            injection hds with h1 h2
            exact absurd h1 (by decide)
        | cons i0 ip' =>
            injection hds with h1 h2
            have : i0.isDigit = true := hip i0 (List.mem_cons_self _ _)
            rw [h1] at this
            exact absurd this (by decide)
      · rw [h] at hds
        injection hds with h1 h2
        have : ('.' : Char).isDigit = true := hall '.' (h2 ▸ (by simp))
        exact absurd this (by decide)
  · simpa using hm

lemma data_ne_nil {t : String} {l : List Char} (h : t.data = l) (hne : l ≠ []) :
    t ≠ "" := by
  intro hc
  subst hc
  exact hne h.symm

lemma data_ne_dash {t : String} {l : List Char} (h : t.data = l) (hne : l ≠ ['-']) :
    t ≠ "-" := by
  intro hc
  subst hc
  exact hne h.symm

/-- C5: normalisation of one cell.  An absent cell or one whose
stripped text is empty or `"-"` gives null; a stripped text of optional
minus followed by digits gives the integer it denotes; one matching the
decimal pattern gives the float it denotes (the embedded parse is total
on the pattern, so the code's fall-back-to-string branch for a failed
parse is dead); anything else gives the stripped string itself. -/
theorem normalizeCell_characterization (c : Option String) :
    (c = none → normalizeCell c = .null)
    ∧ (∀ s, c = some s →
        ((pyStrip s = "" ∨ pyStrip s = "-") → normalizeCell c = .null)
        ∧ (∀ ds : List Char, ds ≠ [] → (∀ d ∈ ds, d.isDigit = true) →
            ((pyStrip s).data = ds → normalizeCell c = .int (digitsVal ds))
              ∧ ((pyStrip s).data = '-' :: ds → normalizeCell c = .int (-(digitsVal ds : ℤ))))
        ∧ (∀ ip fp : List Char, ip ≠ [] → fp ≠ [] → (∀ d ∈ ip, d.isDigit = true) →
            (∀ d ∈ fp, d.isDigit = true) →
            ((pyStrip s).data = ip ++ '.' :: fp →
              normalizeCell c = .float ((digitsVal ip : ℚ) + (digitsVal fp : ℚ) / 10 ^ fp.length))
              ∧ ((pyStrip s).data = '-' :: (ip ++ '.' :: fp) →
                normalizeCell c =
                  .float (-((digitsVal ip : ℚ) + (digitsVal fp : ℚ) / 10 ^ fp.length))))
        ∧ (pyStrip s ≠ "" → pyStrip s ≠ "-" → ¬ IntShape (pyStrip s) →
            ¬ FloatShape (pyStrip s) → normalizeCell c = .str (pyStrip s))) := by
  refine ⟨fun h => by rw [h]; rfl, fun s hc => ?_⟩
  subst hc
  have hcell : normalizeCell (some s) =
      (if pyStrip s = "-" ∨ pyStrip s = "" then .null
       else if matchIntLit (pyStrip s) then .int (intLitVal (pyStrip s))
       else match parseFloatLit (pyStrip s) with
         | some q => .float q
         | none => .str (pyStrip s)) := rfl
  refine ⟨?_, ?_, ?_, ?_⟩
  · intro h
    rw [hcell, if_pos (h.elim Or.inr Or.inl)]
  · intro ds hne hdig
    have hmk : ∀ hdata : (pyStrip s).data = ds ∨ (pyStrip s).data = '-' :: ds,
        matchIntLit (pyStrip s) = true :=
      fun hdata => (matchIntLit_iff _).mpr ⟨ds, hne, hdig, hdata⟩
    constructor
    · intro hdata
      have hne1 : pyStrip s ≠ "" := data_ne_nil hdata hne
      have hne2 : pyStrip s ≠ "-" := by
        refine data_ne_dash hdata ?_
        intro hds
        have : ('-' : Char).isDigit = true :=
          hdig '-' (by rw [hds]; exact List.mem_cons_self _ _)
        exact absurd this (by decide)
      rw [hcell, if_neg (by simp [hne1, hne2]), if_pos (hmk (Or.inl hdata))]
      unfold intLitVal
      rw [hdata]
      cases ds with
      | nil => exact absurd rfl hne
      | cons d ds' =>
          dsimp only
          have hdne : ¬ d = '-' := by
            intro hdm
            have : d.isDigit = true := hdig d (List.mem_cons_self _ _)
            rw [hdm] at this
            exact absurd this (by decide)
          rw [if_neg hdne]
    · intro hdata
      have hne1 : pyStrip s ≠ "" := data_ne_nil hdata (by simp)
      have hne2 : pyStrip s ≠ "-" := by
        refine data_ne_dash hdata ?_
        intro hds
        injection hds with h1 h2
        exact hne h2
      rw [hcell, if_neg (by simp [hne1, hne2]), if_pos (hmk (Or.inr hdata))]
      unfold intLitVal
      rw [hdata]
      dsimp only
      rw [if_pos rfl]
  · intro ip fp hipne hfpne hipdig hfpdig
    constructor
    · intro hdata
      have hne1 : pyStrip s ≠ "" := data_ne_nil hdata (by simp [hipne])
      have hne2 : pyStrip s ≠ "-" := by
        refine data_ne_dash hdata ?_
        cases ip with
        | nil => exact absurd rfl hipne
        | cons i0 ip' =>
            intro hds
            rw [show ((i0 :: ip') ++ '.' :: fp) = i0 :: (ip' ++ '.' :: fp) from rfl] at hds
            injection hds with h1 h2
            simp at h2
      have hint : matchIntLit (pyStrip s) = false :=
        not_intShape_of_decimal hipdig (Or.inl hdata)
      have hparse : parseFloatLit (pyStrip s) =
          some (qAdd (digitsVal ip : ℚ) (qDiv (digitsVal fp : ℚ) (qPow 10 fp.length))) := by
        unfold parseFloatLit
        rw [hdata]
        cases ip with
        | nil => exact absurd rfl hipne
        | cons i0 ip' =>
            rw [show ((i0 :: ip') ++ '.' :: fp) = i0 :: (ip' ++ '.' :: fp) from rfl]
            dsimp only
            have hd0 : ¬ i0 = '-' := by
              intro h0
              have : i0.isDigit = true := hipdig i0 (List.mem_cons_self _ _)
              rw [h0] at this
              exact absurd this (by decide)
            rw [if_neg hd0]
            rw [show decimalParts (i0 :: (ip' ++ '.' :: fp)) =
              decimalParts ((i0 :: ip') ++ '.' :: fp) from rfl]
            rw [(decimalParts_eq_some_iff _ (i0 :: ip') fp).mpr
              ⟨rfl, by simp, hfpne, hipdig, hfpdig⟩]
            rfl
      rw [hcell, if_neg (by simp [hne1, hne2]), hint, if_neg (by simp), hparse,
        qAdd_eq, qDiv_eq, qPow_eq]
    · intro hdata
      have hne1 : pyStrip s ≠ "" := data_ne_nil hdata (by simp)
      have hne2 : pyStrip s ≠ "-" := by
        refine data_ne_dash hdata ?_
        intro hds
        injection hds with h1 h2
        cases ip <;> simp at h2
      have hint : matchIntLit (pyStrip s) = false :=
        not_intShape_of_decimal hipdig (Or.inr hdata)
      have hparse : parseFloatLit (pyStrip s) =
          some (-(qAdd (digitsVal ip : ℚ) (qDiv (digitsVal fp : ℚ) (qPow 10 fp.length)))) := by
        unfold parseFloatLit
        rw [hdata]
        dsimp only
        rw [if_pos rfl,
          (decimalParts_eq_some_iff _ ip fp).mpr ⟨rfl, hipne, hfpne, hipdig, hfpdig⟩]
        rfl
      rw [hcell, if_neg (by simp [hne1, hne2]), hint, if_neg (by simp), hparse,
        qAdd_eq, qDiv_eq, qPow_eq]
  · intro hne1 hne2 hnint hnfloat
    have hint : matchIntLit (pyStrip s) = false := by
      by_cases h : matchIntLit (pyStrip s) = true
      · exact absurd ((matchIntLit_iff _).mp h) hnint
      · simpa using h
    rw [hcell, if_neg (by simp [hne1, hne2]), hint, if_neg (by simp),
      parseFloatLit_none_of_not_shape hnfloat]

/-- C5 witness: one concrete cell of each kind. -/
theorem normalizeCell_characterization_witness :
    normalizeCell none = .null ∧
    normalizeCell (some " - ") = .null ∧
    normalizeCell (some " 12 ") = .int (digitsVal ['1', '2']) ∧
    normalizeCell (some "-3.50") =
      .float (-((digitsVal ['3'] : ℚ) +
        (digitsVal ['5', '0'] : ℚ) / 10 ^ (['5', '0'] : List Char).length)) ∧
    normalizeCell (some " abc ") = .str "abc" := by
  refine ⟨(normalizeCell_characterization none).1 rfl, ?_, ?_, ?_, ?_⟩
  · exact ((normalizeCell_characterization (some " - ")).2 _ rfl).1 (Or.inr (by decide))
  · exact (((normalizeCell_characterization (some " 12 ")).2 _ rfl).2.1 ['1', '2']
      (by decide) (by decide)).1 (by decide)
  · exact (((normalizeCell_characterization (some "-3.50")).2 _ rfl).2.2.1 ['3'] ['5', '0']
      (by decide) (by decide) (by decide) (by decide)).2 (by decide)
  · have hint : ¬ IntShape (pyStrip " abc ") := fun hs =>
      absurd ((matchIntLit_iff _).mpr hs) (by decide)
    have hfloat : ¬ FloatShape (pyStrip " abc ") := by
      rintro ⟨ip, fp, -, -, -, -, hc | hc⟩
      · have hm : ('.' : Char) ∈ (pyStrip " abc ").data := by rw [hc]; simp
        exact absurd hm (by decide)
      · have hm : ('.' : Char) ∈ (pyStrip " abc ").data := by rw [hc]; simp
        exact absurd hm (by decide)
    have h := ((normalizeCell_characterization (some " abc ")).2 _ rfl).2.2.2
      (by decide) (by decide) hint hfloat
    exact h.trans (by decide)

/-! ### Python dict lookups after insertion -/

lemma dictGet_insert_self {α : Type} (d : List (String × α)) (k : String) (v : α) :
    dictGet (dictInsert d k v) k = some v := by
  unfold dictGet dictInsert
  by_cases h : d.any (fun p => p.1 = k)
  · rw [if_pos h]
    induction d with
    | nil => simp at h
    | cons p ps ih =>
        simp only [List.any_cons, Bool.or_eq_true, decide_eq_true_eq] at h
        by_cases hp : p.1 = k
        · simp [List.find?, hp]
        · simp only [List.map_cons, if_neg hp, List.find?]
          rw [show (decide (p.1 = k)) = false by simp [hp]]
          exact ih (by simpa [hp] using h)
  · rw [if_neg h]
    induction d with
    | nil => simp [List.find?]
    | cons p ps ih =>
        simp only [List.any_cons, Bool.or_eq_true, decide_eq_true_eq, not_or] at h
        simp only [List.cons_append, List.find?]
        rw [show (decide (p.1 = k)) = false by simp [h.1]]
        exact ih (by simpa using h.2)

lemma dictGet_insert_ne {α : Type} (d : List (String × α)) (k k' : String) (v : α)
    (hne : k' ≠ k) : dictGet (dictInsert d k v) k' = dictGet d k' := by
  have hkk' : ¬ k = k' := fun hc => hne hc.symm
  unfold dictGet dictInsert
  by_cases h : d.any (fun p => p.1 = k)
  · rw [if_pos h]
    clear h
    induction d with
    | nil => rfl
    | cons p ps ih =>
        by_cases hp : p.1 = k
        · have hp' : ¬ p.1 = k' := by rw [hp]; exact hkk'
          simp only [List.map_cons, if_pos hp]
          rw [List.find?_cons_of_neg _ (by simpa using hkk'),
            List.find?_cons_of_neg _ (by simpa using hp')]
          exact ih
        · simp only [List.map_cons, if_neg hp]
          by_cases hd : p.1 = k'
          · rw [List.find?_cons_of_pos _ (by simpa using hd),
              List.find?_cons_of_pos _ (by simpa using hd)]
          · rw [List.find?_cons_of_neg _ (by simpa using hd),
              List.find?_cons_of_neg _ (by simpa using hd)]
            exact ih
  · rw [if_neg h]
    clear h
    induction d with
    | nil =>
        rw [List.nil_append, List.find?_cons_of_neg _ (by simpa using hkk')]
    | cons p ps ih =>
        rw [List.cons_append]
        by_cases hd : p.1 = k'
        · rw [List.find?_cons_of_pos _ (by simpa using hd),
            List.find?_cons_of_pos _ (by simpa using hd)]
        · rw [List.find?_cons_of_neg _ (by simpa using hd),
            List.find?_cons_of_neg _ (by simpa using hd)]
          exact ih

/-! ### The per-record round aggregation (claim C7) -/

lemma roundsFold_go (r : Record) :
    ∀ (rcs : List String) (a : ℚ) (n : ℕ),
      rcs.foldl (fun acc rc => (qAdd acc.1 (coerceRound (recGet r rc)), acc.2 + 1)) (a, n) =
        (a + (rcs.map (fun rc => coerceRound (recGet r rc))).sum, n + rcs.length) := by
  intro rcs
  induction rcs with
  | nil => intro a n; simp
  | cons rc rest ih =>
      intro a n
      rw [List.foldl_cons, ih, qAdd_eq]
      simp only [List.map_cons, List.sum_cons, List.length_cons]
      rw [add_assoc]
      congr 1
      omega

lemma roundsFold_spec (round_cols : List String) (r : Record) :
    roundsFold round_cols r =
      ((round_cols.map (fun rc => coerceRound (recGet r rc))).sum, round_cols.length) := by
  unfold roundsFold
  rw [roundsFold_go]
  simp

/-- C7: with round columns detected, the computed round total is the
sum of the per-column coerced values (missing/no-parse → 0, numbers →
their value, other text → its float parse), and the computed round
count is the number of round columns iterated — not the number of
numeric cells. -/
theorem rounds_aggregate_characterization (round_cols : List String) (r : Record)
    (h : round_cols ≠ []) :
    (roundsFold round_cols r).1 = (round_cols.map (fun rc => coerceRound (recGet r rc))).sum
    ∧ (roundsFold round_cols r).2 = round_cols.length
    ∧ recGet (scoreRecord round_cols r) "computed_rounds_total" =
        .float ((round_cols.map (fun rc => coerceRound (recGet r rc))).sum)
    ∧ recGet (scoreRecord round_cols r) "computed_rounds_count" = .int round_cols.length := by
  have hs := roundsFold_spec round_cols r
  refine ⟨by rw [hs], by rw [hs], ?_, ?_⟩
  · unfold scoreRecord recGet
    rw [if_neg h,
      dictGet_insert_ne _ _ _ _ (by decide), dictGet_insert_self, hs]
    rfl
  · unfold scoreRecord recGet
    rw [if_neg h, dictGet_insert_self, hs]

/-- C7 witness: a record with a missing cell, two numeric cells and an
unparseable text cell over four round columns sums to 5 + 2.5 and
counts 4. -/
theorem rounds_aggregate_characterization_witness :
    (roundsFold ["R01", "R02", "R03", "R04"]
      [("R02", Value.int 5), ("R03", Value.str "2.5"), ("R04", Value.str "DSQ")]).1 =
      ([0, 5, mkRat 5 2, 0] : List ℚ).sum ∧
    (roundsFold ["R01", "R02", "R03", "R04"]
      [("R02", Value.int 5), ("R03", Value.str "2.5"), ("R04", Value.str "DSQ")]).2 = 4 := by
  have h := rounds_aggregate_characterization ["R01", "R02", "R03", "R04"]
    [("R02", Value.int 5), ("R03", Value.str "2.5"), ("R04", Value.str "DSQ")] (by decide)
  constructor
  · rw [h.1]
    rfl
  · exact h.2.1

/-! ### Canonical total selection (claim C6) -/

lemma find?_eq_some_first {α : Type} [DecidableEq α] {p : α → Bool} :
    ∀ (l : List α) (c : α), l.find? p = some c →
      c ∈ l ∧ p c = true ∧ ∀ d ∈ l, p d = true → l.indexOf c ≤ l.indexOf d := by
  intro l
  induction l with
  | nil => intro c h; cases h
  | cons a as ih =>
      intro c h
      rw [List.find?] at h
      cases hp : p a with
      | true =>
          rw [hp] at h
          injection h with h'
          subst h'
          exact ⟨List.mem_cons_self _ _, hp, fun d _ _ => by simp [List.indexOf_cons_self]⟩
      | false =>
          rw [hp] at h
          obtain ⟨hmem, hpc, hmin⟩ := ih c h
          have hac : a ≠ c := fun hac => by rw [hac, hpc] at hp; cases hp
          refine ⟨List.mem_cons_of_mem _ hmem, hpc, ?_⟩
          intro d hd hpd
          rcases List.mem_cons.mp hd with rfl | hd2
          · rw [hpd] at hp; cases hp
          · have had : a ≠ d := fun had => by rw [had, hpd] at hp; cases hp
            rw [List.indexOf_cons_ne _ (by simpa using hac),
              List.indexOf_cons_ne _ (by simpa using had)]
            exact Nat.succ_le_succ (hmin d hd2 hpd)

/-- C6: the explicit total column is the first of `Total`, `Pts`,
`Points`, `TOTAL` present among the headers; the stored ranking total
is its value whenever that value is numeric, and otherwise the computed
round total (0.0 when that is null). -/
theorem rank_total_selection (headers : List String) (r : Record) :
    (∀ c, totalCol headers = some c →
        c ∈ ["Total", "Pts", "Points", "TOTAL"] ∧ c ∈ headers ∧
          ∀ d ∈ ["Total", "Pts", "Points", "TOTAL"], d ∈ headers →
            ["Total", "Pts", "Points", "TOTAL"].indexOf c ≤
              ["Total", "Pts", "Points", "TOTAL"].indexOf d)
    ∧ (totalCol headers = none → ∀ d ∈ ["Total", "Pts", "Points", "TOTAL"], d ∉ headers)
    ∧ (∀ c, totalCol headers = some c → isNumeric (recGet r c) = true →
        rankTotalOf (totalCol headers) r = numVal (recGet r c))
    ∧ (∀ c, totalCol headers = some c → isNumeric (recGet r c) = false →
        rankTotalOf (totalCol headers) r =
          (if recGet r "computed_rounds_total" = .null then 0
           else numVal (recGet r "computed_rounds_total")))
    ∧ (totalCol headers = none →
        rankTotalOf (totalCol headers) r =
          (if recGet r "computed_rounds_total" = .null then 0
           else numVal (recGet r "computed_rounds_total"))) := by
  have hfallback : ∀ v : Value, (match v with | .null => (0 : ℚ) | v => numVal v) =
      (if v = .null then 0 else numVal v) := by
    intro v
    cases v <;> simp [numVal]
  refine ⟨?_, ?_, ?_, ?_, ?_⟩
  · intro c h
    obtain ⟨hmem, hp, hmin⟩ := find?_eq_some_first _ c h
    exact ⟨hmem, by simpa using hp, fun d hd hd2 => hmin d hd (by simpa using hd2)⟩
  · intro h d hd hmem
    have := List.find?_eq_none.mp h d hd
    simp at this
    exact this hmem
  · intro c h hnum
    rw [h]
    unfold rankTotalOf
    dsimp only
    rw [if_pos hnum]
    cases recGet r c <;> rfl
  · intro c h hnum
    rw [h]
    unfold rankTotalOf
    dsimp only
    rw [if_neg (by simp [hnum])]
    exact hfallback _
  · intro h
    rw [h]
    unfold rankTotalOf
    dsimp only
    exact hfallback _

/-- C6 witness: `Pts` is preferred over `TOTAL` when both are present
(`Total` absent), its numeric value is taken, and a record whose `Pts`
is text falls back to the computed round total. -/
theorem rank_total_selection_witness :
    totalCol ["Player", "Pts", "TOTAL"] = some "Pts" ∧
    rankTotalOf (totalCol ["Player", "Pts", "TOTAL"]) [("Pts", Value.int 9)] = 9 ∧
    rankTotalOf (totalCol ["Player", "Pts", "TOTAL"])
      [("Pts", Value.str "x"), ("computed_rounds_total", Value.float 7)] = 7 := by
  have h := rank_total_selection ["Player", "Pts", "TOTAL"] [("Pts", Value.int 9)]
  have h2 := rank_total_selection ["Player", "Pts", "TOTAL"]
    [("Pts", Value.str "x"), ("computed_rounds_total", Value.float 7)]
  refine ⟨by decide, ?_, ?_⟩
  · have := h.2.2.1 "Pts" (by decide) (by decide)
    rw [this]
    rfl
  · have := h2.2.2.2.1 "Pts" (by decide) (by decide)
    rw [this]
    decide

/-! ### Shared-string resolution (claim C10) -/

/-- C10: for a string-typed cell whose `<v>` text parses as an index,
the reader keeps the raw index text whenever the index is out of range
(negative or past the end of the shared-string table), looks the string
up when in range, and never raises either way. -/
theorem shared_string_lookup_total (shared : List String) (c : Cell) (text : String)
    (idx : ℤ) (ht : c.t = some "s") (hv : c.v = some text)
    (hidx : pyIntParse text = .ok idx) :
    ((idx < 0 ∨ (shared.length : ℤ) ≤ idx) → cellValue shared c = .ok (some text))
    ∧ (0 ≤ idx → idx < (shared.length : ℤ) →
        cellValue shared c = .ok (some (shared.getD idx.toNat "")))
    ∧ ∃ v, cellValue shared c = .ok v := by
  have hcell : cellValue shared c = (do
      let i ← pyIntParse text
      if 0 ≤ i ∧ i < (shared.length : ℤ) then do
        let s ← pyListIndex shared i
        return some s
      else return some text) := by
    unfold cellValue
    rw [hv]
    dsimp only
    rw [if_pos ht]
  rw [hcell, hidx, exceptBind_ok]
  constructor
  · intro hrange
    rw [if_neg (by omega)]
    rfl
  constructor
  · intro h1 h2
    rw [if_pos ⟨h1, h2⟩]
    unfold pyListIndex
    dsimp only
    rw [if_neg (show ¬ idx < 0 by omega), if_pos ⟨h1, h2⟩, exceptBind_ok]
    rfl
  · by_cases hrange : 0 ≤ idx ∧ idx < (shared.length : ℤ)
    · refine ⟨some (shared.getD idx.toNat ""), ?_⟩
      rw [if_pos hrange]
      unfold pyListIndex
      dsimp only
      rw [if_neg (show ¬ idx < 0 by omega), if_pos hrange, exceptBind_ok]
      rfl
    · exact ⟨some text, by rw [if_neg hrange]; rfl⟩

/-- C10 witness: index 5 against a 2-element table keeps the text "5";
index 1 resolves; index -1 keeps "-1". -/
theorem shared_string_lookup_total_witness :
    cellValue ["aa", "bb"] { ref := "A1", t := some "s", v := some "5", inlineStr := none } =
      .ok (some "5") ∧
    cellValue ["aa", "bb"] { ref := "A1", t := some "s", v := some "1", inlineStr := none } =
      .ok (some "bb") ∧
    cellValue ["aa", "bb"] { ref := "A1", t := some "s", v := some "-1", inlineStr := none } =
      .ok (some "-1") := by
  refine ⟨?_, ?_, ?_⟩
  · exact (shared_string_lookup_total ["aa", "bb"]
      { ref := "A1", t := some "s", v := some "5", inlineStr := none } "5" 5 rfl rfl
      (by decide)).1 (by right; decide)
  · have := (shared_string_lookup_total ["aa", "bb"]
      { ref := "A1", t := some "s", v := some "1", inlineStr := none } "1" 1 rfl rfl
      (by decide)).2.1 (by decide) (by decide)
    rw [this]
    rfl
  · exact (shared_string_lookup_total ["aa", "bb"]
      { ref := "A1", t := some "s", v := some "-1", inlineStr := none } "-1" (-1) rfl rfl
      (by decide)).1 (by left; decide)

/-! ### Header derivation (claim C8) -/

/-- C8 counterexample: a column letter that first appears below row 1
produces no header — the headers cover only the letters of row 1, not
every letter encountered anywhere in the sheet. -/
theorem headers_anywhere_counterexample :
    headersOf c8Rows = ["Pos"] ∧
    headersSpecC8 c8Rows = ["Pos", "COL_B"] ∧
    headersOf c8Rows ≠ headersSpecC8 c8Rows := by
  refine ⟨by decide, by decide, by decide⟩

/-- C8 amended: header derivation looks only at the first row — one
header per distinct column letter of row 1, ordered by base-26
letter-to-index conversion, the text taken from the row-1 cell and
defaulting to `COL_<letter>` when that cell is absent, `None`, or
empty. -/
theorem headers_first_row_characterization (hr : RawRow) (rest rest' : List RawRow) :
    headersOf (hr :: rest) = headersOf (hr :: rest')
    ∧ headersOf (hr :: rest) = (sortedCols hr).map (headerName hr)
    ∧ (sortedCols hr).Perm (fdedup (hr.map Prod.fst))
    ∧ List.Pairwise (fun a b => colIndex a ≤ colIndex b) (sortedCols hr)
    ∧ (∀ c s, rawGet hr c = some s → s ≠ "" → headerName hr c = s)
    ∧ (∀ c, rawGet hr c = some "" → headerName hr c = "COL_" ++ c)
    ∧ (∀ c, rawGet hr c = none → headerName hr c = "COL_" ++ c) := by
  refine ⟨rfl, rfl, sortBy_perm _ _, ?_, ?_, ?_, ?_⟩
  · unfold sortedCols
    exact @pairwise_sortBy String (fun a b => colIndex a < colIndex b)
      (fun a b => colIndex a ≤ colIndex b)
      (fun a b h => le_of_lt (by simpa using h))
      (fun a b h => le_of_not_lt (by simpa using h))
      (fun a b c h1 h2 => le_trans h1 h2) _
  · intro c s hc hs
    unfold headerName
    rw [hc]
    dsimp only
    rw [if_neg hs]
  · intro c hc
    unfold headerName
    rw [hc]
    dsimp only
    rw [if_pos rfl]
  · intro c hc
    unfold headerName
    rw [hc]

/-- C8 witness: later rows do not change the headers; a named row-1
cell keeps its text and an empty one gets the placeholder. -/
theorem headers_first_row_characterization_witness :
    headersOf [[("B", some ""), ("A", some "Pos")], [("C", some "9")]] =
      headersOf [[("B", some ""), ("A", some "Pos")]] ∧
    headerName [("B", some ""), ("A", some "Pos")] "A" = "Pos" ∧
    headerName [("B", some ""), ("A", some "Pos")] "B" = "COL_B" := by
  have h := headers_first_row_characterization [("B", some ""), ("A", some "Pos")]
    [[("C", some "9")]] []
  exact ⟨h.1, h.2.2.2.2.1 "A" "Pos" (by decide) (by decide), h.2.2.2.2.2.1 "B" (by decide)⟩

/-! ### The error surface of `run` (claim C9) -/

lemma mapM_error_iff {α β : Type} (f : α → Except Unit β) :
    ∀ l : List α, l.mapM f = .error () ↔ ∃ a ∈ l, f a = .error () := by
  intro l
  induction l with
  | nil =>
      constructor
      · intro h
        exact Except.noConfusion h
      · rintro ⟨a, ha, -⟩
        exact absurd ha (by simp)
  | cons x xs ih =>
      rw [List.mapM_cons]
      cases hx : f x with
      | error e =>
          cases e
          rw [exceptBind_error]
          constructor
          · intro _
            exact ⟨x, List.mem_cons_self _ _, hx⟩
          · intro _
            rfl
      | ok b =>
          rw [exceptBind_ok]
          cases hxs : xs.mapM f with
          | error e =>
              cases e
              rw [exceptBind_error]
              constructor
              · intro _
                obtain ⟨a, ha, herr⟩ := ih.mp hxs
                exact ⟨a, List.mem_cons_of_mem _ ha, herr⟩
              · intro _
                rfl
          | ok bs =>
              rw [exceptBind_ok, exceptPure_eq]
              constructor
              · intro h
                exact Except.noConfusion h
              · rintro ⟨a, ha, herr⟩
                rcases List.mem_cons.mp ha with rfl | ha2
                · rw [hx] at herr
                  exact Except.noConfusion herr
                · rw [ih.mpr ⟨a, ha2, herr⟩] at hxs
                  exact Except.noConfusion hxs

lemma parseRowCells_go_error_iff (shared : List String) :
    ∀ (cells : List Cell) (acc : RawRow),
      (cells.foldlM
        (fun acc c => do
          let val ← cellValue shared c
          return dictInsert acc (colOf c.ref) val) acc) = .error () ↔
      ∃ c ∈ cells, cellValue shared c = .error () := by
  intro cells
  induction cells with
  | nil =>
      intro acc
      constructor
      · intro h
        exact Except.noConfusion h
      · rintro ⟨c, hc, -⟩
        exact absurd hc (by simp)
  | cons c cs ih =>
      intro acc
      rw [List.foldlM_cons]
      cases hc : cellValue shared c with
      | error e =>
          cases e
          rw [exceptBind_error, exceptBind_error]
          constructor
          · intro _
            exact ⟨c, List.mem_cons_self _ _, hc⟩
          · intro _
            rfl
      | ok v =>
          rw [exceptBind_ok, exceptPure_eq, exceptBind_ok, ih]
          constructor
          · rintro ⟨c2, hc2, herr⟩
            exact ⟨c2, List.mem_cons_of_mem _ hc2, herr⟩
          · rintro ⟨c2, hc2, herr⟩
            rcases List.mem_cons.mp hc2 with rfl | h2
            · rw [hc] at herr
              exact Except.noConfusion herr
            · exact ⟨c2, h2, herr⟩

lemma parseRowCells_error_iff (shared : List String) (cells : List Cell) :
    parseRowCells shared cells = .error () ↔
      ∃ c ∈ cells, cellValue shared c = .error () := by
  unfold parseRowCells
  exact parseRowCells_go_error_iff shared cells []

lemma run_unfold (p : Pkg) :
    run (some p) = parse_xlsx_to_rows p >>= (fun rows =>
      if normalize_rows rows = [] then Except.error ()
      else Except.ok (runResultOf (normalize_rows rows))) := rfl

/-- C9 counterexample: a package that opens, has its worksheet, and has
no successful parse yielding an empty dataset, yet `run` still
propagates an error — the `int()` call on a string-typed cell's
shared-string index text is a fourth, unlisted error source. -/
theorem run_error_counterexample :
    run (some c9BadPkg) = .error ()
    ∧ c9BadPkg.sheet ≠ none
    ∧ ¬ ∃ rows, parse_xlsx_to_rows c9BadPkg = .ok rows ∧ normalize_rows rows = [] := by
  refine ⟨by decide, by decide, ?_⟩
  rintro ⟨rows, hok, -⟩
  have herr : parse_xlsx_to_rows c9BadPkg = .error () := by decide
  rw [herr] at hok
  cases hok

/-- C9 amended: `run` fails exactly when the package cannot be opened,
parsing fails (the worksheet part is absent, or — the unlisted source —
some string-typed cell's index text fails integer parsing), or
normalization is empty; a ranking-stage error is swallowed and the
unranked rows are written. -/
theorem run_error_characterization (p : Pkg) :
    run none = .error ()
    ∧ ((∃ res, run (some p) = .ok res) ↔
        ∃ rows, parse_xlsx_to_rows p = .ok rows ∧ normalize_rows rows ≠ [])
    ∧ (p.sheet = none → parse_xlsx_to_rows p = .error ())
    ∧ (∀ sheet, p.sheet = some sheet →
        (parse_xlsx_to_rows p = .error () ↔
          ∃ row ∈ sheet, ∃ c ∈ row,
            cellValue (p.sharedStrings.getD []) c = .error ()))
    ∧ (∀ shared : List String, ∀ c : Cell, cellValue shared c = .error () ↔
        c.t = some "s" ∧ ∃ text, c.v = some text ∧ pyIntParse text = .error ())
    ∧ (∀ rows, parse_xlsx_to_rows p = .ok rows → normalize_rows rows ≠ [] →
        rank_rows (rrowsOf (normalize_rows rows)) = .error () →
        run (some p) = .ok
          { csvRows := (rrowsOf (normalize_rows rows)).map (fun r => ⟨r, none⟩),
            jsonRows := (rrowsOf (normalize_rows rows)).map (fun r => ⟨r, none⟩),
            rowCount := (rrowsOf (normalize_rows rows)).length,
            roundColumns := roundColsOfNorm (normalize_rows rows) }) := by
  refine ⟨rfl, ?_, ?_, ?_, ?_, ?_⟩
  · constructor
    · rintro ⟨res, hres⟩
      rw [run_unfold] at hres
      cases hp : parse_xlsx_to_rows p with
      | error e =>
          cases e
          rw [hp, exceptBind_error] at hres
          cases hres
      | ok rows =>
          rw [hp, exceptBind_ok] at hres
          by_cases hn : normalize_rows rows = []
          · rw [if_pos hn] at hres
            cases hres
          · exact ⟨rows, rfl, hn⟩
    · rintro ⟨rows, hp, hn⟩
      refine ⟨runResultOf (normalize_rows rows), ?_⟩
      rw [run_unfold, hp, exceptBind_ok]
      rw [if_neg hn]
  · intro h
    unfold parse_xlsx_to_rows
    rw [h]
  · intro sheet hsh
    unfold parse_xlsx_to_rows
    rw [hsh]
    dsimp only
    exact mapM_error_iff _ sheet |>.trans
      (by
        constructor
        · rintro ⟨row, hrow, herr⟩
          exact ⟨row, hrow, (parseRowCells_error_iff _ row).mp herr⟩
        · rintro ⟨row, hrow, c, hc, herr⟩
          exact ⟨row, hrow, (parseRowCells_error_iff _ row).mpr ⟨c, hc, herr⟩⟩)
  · intro shared c
    constructor
    · intro herr
      unfold cellValue at herr
      cases hv : c.v with
      | none =>
          rw [hv] at herr
          exact Except.noConfusion herr
      | some text =>
          rw [hv] at herr
          dsimp only at herr
          by_cases ht : c.t = some "s"
          · rw [if_pos ht] at herr
            cases hip : pyIntParse text with
            | error e =>
                cases e
                exact ⟨ht, text, rfl, hip⟩
            | ok idx =>
                rw [hip, exceptBind_ok] at herr
                by_cases hr : 0 ≤ idx ∧ idx < (shared.length : ℤ)
                · rw [if_pos hr] at herr
                  unfold pyListIndex at herr
                  dsimp only at herr
                  rw [if_neg (show ¬ idx < 0 by omega), if_pos hr, exceptBind_ok] at herr
                  exact Except.noConfusion herr
                · rw [if_neg hr] at herr
                  exact Except.noConfusion herr
          · rw [if_neg ht] at herr
            exact Except.noConfusion herr
    · rintro ⟨ht, text, hv, hip⟩
      unfold cellValue
      rw [hv]
      dsimp only
      rw [if_pos ht, hip]
      exact exceptBind_error _
  · intro rows hp hn herr
    rw [run_unfold, hp, exceptBind_ok]
    rw [if_neg hn]
    unfold runResultOf
    rw [herr]
    dsimp only
    congr 1
    simp [List.length_map]

/-- C9 witness: the mixed-type-`Player` package runs to completion with
every output row unranked, although its ranking stage raises. -/
theorem run_error_characterization_witness :
    parse_xlsx_to_rows c9RankPkg =
      .ok [[("A", some "Player")], [("A", some "abc")], [("A", some "5")]] ∧
    run (some c9RankPkg) = .ok
      { csvRows := (rrowsOf (normalize_rows
          [[("A", some "Player")], [("A", some "abc")], [("A", some "5")]])).map
            (fun r => ⟨r, none⟩),
        jsonRows := (rrowsOf (normalize_rows
          [[("A", some "Player")], [("A", some "abc")], [("A", some "5")]])).map
            (fun r => ⟨r, none⟩),
        rowCount := (rrowsOf (normalize_rows
          [[("A", some "Player")], [("A", some "abc")], [("A", some "5")]])).length,
        roundColumns := roundColsOfNorm (normalize_rows
          [[("A", some "Player")], [("A", some "abc")], [("A", some "5")]]) } := by
  refine ⟨by decide, ?_⟩
  exact (run_error_characterization c9RankPkg).2.2.2.2.2
    [[("A", some "Player")], [("A", some "abc")], [("A", some "5")]]
    (by decide) (by decide) (by decide)

/-! ### Tie-group annotation (claim C3) -/

lemma fdedupAux_mem {α : Type} [DecidableEq α] :
    ∀ (l seen : List α) (x : α), x ∈ fdedupAux seen l ↔ x ∈ l ∧ x ∉ seen := by
  intro l
  induction l with
  | nil => intro seen x; simp [fdedupAux]
  | cons y ys ih =>
      intro seen x
      show x ∈ (if y ∈ seen then fdedupAux seen ys else y :: fdedupAux (y :: seen) ys) ↔ _
      by_cases hy : y ∈ seen
      · rw [if_pos hy, ih]
        constructor
        · rintro ⟨h1, h2⟩
          exact ⟨List.mem_cons_of_mem _ h1, h2⟩
        · rintro ⟨h1, h2⟩
          rcases List.mem_cons.mp h1 with rfl | h3
          · exact absurd hy h2
          · exact ⟨h3, h2⟩
      · rw [if_neg hy]
        constructor
        · intro hx
          rcases List.mem_cons.mp hx with rfl | h3
          · exact ⟨List.mem_cons_self _ _, hy⟩
          · obtain ⟨h4, h5⟩ := (ih (y :: seen) x).mp h3
            simp only [List.mem_cons, not_or] at h5
            exact ⟨List.mem_cons_of_mem _ h4, h5.2⟩
        · rintro ⟨h1, h2⟩
          rcases List.mem_cons.mp h1 with rfl | h3
          · exact List.mem_cons_self _ _
          · by_cases hxy : x = y
            · subst hxy
              exact List.mem_cons_self _ _
            · refine List.mem_cons_of_mem _ ((ih (y :: seen) x).mpr ⟨h3, ?_⟩)
              simp only [List.mem_cons, not_or]
              exact ⟨hxy, h2⟩

lemma fdedup_mem {α : Type} [DecidableEq α] (l : List α) (x : α) :
    x ∈ fdedup l ↔ x ∈ l := by
  unfold fdedup
  rw [fdedupAux_mem]
  simp

lemma fdedupAux_congr {α : Type} [DecidableEq α] :
    ∀ (l seen seen' : List α), (∀ x, x ∈ seen ↔ x ∈ seen') →
      fdedupAux seen l = fdedupAux seen' l := by
  intro l
  induction l with
  | nil => intro seen seen' h; rfl
  | cons x xs ih =>
      intro seen seen' h
      show (if x ∈ seen then fdedupAux seen xs else x :: fdedupAux (x :: seen) xs) =
        (if x ∈ seen' then fdedupAux seen' xs else x :: fdedupAux (x :: seen') xs)
      by_cases hx : x ∈ seen
      · rw [if_pos hx, if_pos ((h x).mp hx)]
        exact ih seen seen' h
      · rw [if_neg hx, if_neg (fun hc => hx ((h x).mpr hc))]
        rw [ih (x :: seen) (x :: seen') (fun y => by simp [h y])]

lemma fdedupAux_append {α : Type} [DecidableEq α] :
    ∀ (l1 seen l2 : List α),
      fdedupAux seen (l1 ++ l2) = fdedupAux seen l1 ++ fdedupAux (l1 ++ seen) l2 := by
  intro l1
  induction l1 with
  | nil => intro seen l2; rfl
  | cons x xs ih =>
      intro seen l2
      show (if x ∈ seen then fdedupAux seen (xs ++ l2)
            else x :: fdedupAux (x :: seen) (xs ++ l2)) =
        (if x ∈ seen then fdedupAux seen xs else x :: fdedupAux (x :: seen) xs) ++
          fdedupAux (x :: xs ++ seen) l2
      by_cases hx : x ∈ seen
      · rw [if_pos hx, if_pos hx, ih seen l2]
        congr 1
        refine fdedupAux_congr l2 (xs ++ seen) (x :: xs ++ seen) (fun y => ?_)
        constructor
        · intro hy
          exact List.mem_cons_of_mem _ hy
        · intro hy
          rcases List.mem_cons.mp hy with rfl | h2
          · exact List.mem_append.mpr (Or.inr hx)
          · exact h2
      · rw [if_neg hx, if_neg hx, ih (x :: seen) l2, List.cons_append]
        congr 2
        refine fdedupAux_congr l2 (xs ++ x :: seen) (x :: xs ++ seen) (fun y => ?_)
        simp only [List.mem_append, List.mem_cons]
        tauto

lemma fdedup_append_single {α : Type} [DecidableEq α] (pre : List α) (k : α) :
    fdedup (pre ++ [k]) = fdedup pre ++ (if k ∈ pre then [] else [k]) := by
  unfold fdedup
  rw [fdedupAux_append]
  congr 1
  rw [List.append_nil]
  show (if k ∈ pre then fdedupAux pre [] else k :: fdedupAux (k :: pre) []) = _
  by_cases hm : k ∈ pre
  · rw [if_pos hm, if_pos hm]
    rfl
  · rw [if_neg hm, if_neg hm]
    rfl

lemma dupFirstsP_append (ks pre rest : List TieKey) :
    dupFirstsP ks (pre ++ rest) =
      dupFirstsP ks pre ++ (fdedupAux pre rest).filter (fun k => 1 < ks.count k) := by
  unfold dupFirstsP fdedup
  rw [fdedupAux_append, List.filter_append]
  congr 2
  rw [List.append_nil]

lemma mem_dupFirstsP {ks pre : List TieKey} {k : TieKey} :
    k ∈ dupFirstsP ks pre ↔ k ∈ pre ∧ 1 < ks.count k := by
  unfold dupFirstsP
  rw [List.mem_filter, fdedup_mem]
  simp

lemma dupFirstsP_append_single (ks pre : List TieKey) (k : TieKey) :
    dupFirstsP ks (pre ++ [k]) =
      if k ∈ pre then dupFirstsP ks pre
      else if 1 < ks.count k then dupFirstsP ks pre ++ [k] else dupFirstsP ks pre := by
  unfold dupFirstsP
  rw [fdedup_append_single, List.filter_append]
  by_cases hm : k ∈ pre
  · rw [if_pos hm, if_pos hm]
    simp
  · rw [if_neg hm, if_neg hm]
    by_cases hc : 1 < ks.count k
    · rw [if_pos hc]
      simp [hc]
    · rw [if_neg hc]
      simp [hc]

lemma gmOfFrom_append :
    ∀ (l1 : List TieKey) (n : ℕ) (l2 : List TieKey),
      gmOfFrom n (l1 ++ l2) = gmOfFrom n l1 ++ gmOfFrom (n + l1.length) l2 := by
  intro l1
  induction l1 with
  | nil =>
      intro n l2
      show gmOfFrom n l2 = gmOfFrom (n + 0) l2
      rw [Nat.add_zero]
  | cons k rest ih =>
      intro n l2
      show (k, n + 1) :: gmOfFrom (n + 1) (rest ++ l2) = _
      rw [ih (n + 1) l2, List.length_cons,
        show n + (rest.length + 1) = n + 1 + rest.length by omega]
      rfl

lemma gmOf_append_single (l : List TieKey) (k : TieKey) :
    gmOf (l ++ [k]) = gmOf l ++ [(k, l.length + 1)] := by
  unfold gmOf
  rw [gmOfFrom_append, Nat.zero_add]
  rfl

lemma lookupKey_gmOfFrom_none :
    ∀ (l : List TieKey) (n : ℕ) (k : TieKey), k ∉ l →
      lookupKey (gmOfFrom n l) k = none := by
  intro l
  induction l with
  | nil => intro n k h; rfl
  | cons x xs ih =>
      intro n k h
      have hx : ¬ x = k := fun hc => h (by rw [← hc]; exact List.mem_cons_self _ _)
      show lookupKey ((x, n + 1) :: gmOfFrom (n + 1) xs) k = none
      unfold lookupKey
      rw [List.find?_cons_of_neg _ (by simpa using hx)]
      exact ih (n + 1) k (fun hc => h (List.mem_cons_of_mem _ hc))

lemma lookupKey_gmOfFrom_mem :
    ∀ (l : List TieKey) (n : ℕ) (k : TieKey), k ∈ l →
      lookupKey (gmOfFrom n l) k = some (n + posIn l k + 1) := by
  intro l
  induction l with
  | nil => intro n k h; cases h
  | cons x xs ih =>
      intro n k h
      by_cases hx : x = k
      · subst hx
        show lookupKey ((x, n + 1) :: gmOfFrom (n + 1) xs) x = _
        unfold lookupKey
        rw [List.find?_cons_of_pos _ (by simp),
          show posIn (x :: xs) x = 0 from by simp [posIn]]
        rfl
      · have hk : k ∈ xs := by
          rcases List.mem_cons.mp h with rfl | h2
          · exact absurd rfl hx
          · exact h2
        show lookupKey ((x, n + 1) :: gmOfFrom (n + 1) xs) k = _
        unfold lookupKey
        rw [List.find?_cons_of_neg _ (by simpa using hx)]
        have hrec := ih (n + 1) k hk
        unfold lookupKey at hrec
        rw [hrec, show posIn (x :: xs) k = posIn xs k + 1 from by simp [posIn, hx]]
        congr 1
        omega

lemma posIn_append_of_mem {k : TieKey} :
    ∀ {l1 : List TieKey} (l2 : List TieKey), k ∈ l1 → posIn (l1 ++ l2) k = posIn l1 k := by
  intro l1
  induction l1 with
  | nil => intro l2 h; cases h
  | cons x xs ih =>
      intro l2 h
      by_cases hx : x = k
      · subst hx
        rw [List.cons_append, show posIn (x :: (xs ++ l2)) x = 0 from by simp [posIn],
          show posIn (x :: xs) x = 0 from by simp [posIn]]
      · have hk : k ∈ xs := by
          rcases List.mem_cons.mp h with rfl | h2
          · exact absurd rfl hx
          · exact h2
        rw [List.cons_append, show posIn (x :: (xs ++ l2)) k = posIn (xs ++ l2) k + 1
            from by simp [posIn, hx],
          show posIn (x :: xs) k = posIn xs k + 1 from by simp [posIn, hx], ih l2 hk]

lemma lookupKey_gmOf_append_left (l1 l2 : List TieKey) (k : TieKey) (h : k ∈ l1) :
    lookupKey (gmOf (l1 ++ l2)) k = lookupKey (gmOf l1) k := by
  unfold gmOf
  rw [lookupKey_gmOfFrom_mem _ 0 k (List.mem_append.mpr (Or.inl h)),
    lookupKey_gmOfFrom_mem _ 0 k h, posIn_append_of_mem l2 h]

lemma lookupKey_gmOf_mem (l : List TieKey) (k : TieKey) (h : k ∈ l) :
    lookupKey (gmOf l) k = some (posIn l k + 1) := by
  have hrec := lookupKey_gmOfFrom_mem l 0 k h
  rw [Nat.zero_add] at hrec
  exact hrec

lemma getD_mem_of_lt {α : Type} :
    ∀ (l : List α) (i : ℕ) (d : α), i < l.length → l.getD i d ∈ l := by
  intro l
  induction l with
  | nil => intro i d hi; exact absurd hi (by simp)
  | cons x xs ih =>
      intro i d hi
      cases i with
      | zero => exact List.mem_cons_self _ _
      | succ j => exact List.mem_cons_of_mem _ (ih j d (by simpa using hi))

lemma gmStep_inv (ks pre : List TieKey) (k : TieKey) :
    gmStep ks (gmOf (dupFirstsP ks pre)) (dupFirstsP ks pre).length k =
      (gmOf (dupFirstsP ks (pre ++ [k])), (dupFirstsP ks (pre ++ [k])).length) := by
  unfold gmStep
  by_cases hc : 1 < ks.count k
  · by_cases hm : k ∈ pre
    · have hmem : k ∈ dupFirstsP ks pre := mem_dupFirstsP.mpr ⟨hm, hc⟩
      have hlk := lookupKey_gmOfFrom_mem _ 0 k hmem
      rw [if_neg (fun hcontra => by
        rw [show gmOf (dupFirstsP ks pre) = gmOfFrom 0 (dupFirstsP ks pre) from rfl,
          hlk] at hcontra
        exact absurd hcontra.1 (by simp))]
      rw [dupFirstsP_append_single, if_pos hm]
    · have hnone : lookupKey (gmOf (dupFirstsP ks pre)) k = none :=
        lookupKey_gmOfFrom_none _ 0 k (fun hmem => hm (mem_dupFirstsP.mp hmem).1)
      rw [if_pos ⟨by rw [hnone]; rfl, hc⟩, dupFirstsP_append_single, if_neg hm, if_pos hc,
        gmOf_append_single]
      simp

  · rw [if_neg (fun hcontra => hc hcontra.2), dupFirstsP_append_single]
    by_cases hm : k ∈ pre
    · rw [if_pos hm]
    · rw [if_neg hm, if_neg hc]

lemma annotateLoop_getD_row (ks : List TieKey) :
    ∀ (l : List RRow) (gm : List (TieKey × ℕ)) (tid idx : ℕ) (prev : Option RankedRow)
      (i : ℕ), i < l.length →
      ((annotateLoop ks gm tid idx prev l).getD i default).row = l.getD i default := by
  intro l
  induction l with
  | nil => intro gm tid idx prev i hi; exact absurd hi (by simp)
  | cons r rest ih =>
      intro gm tid idx prev i hi
      rw [annotateLoop_cons]
      cases i with
      | zero => simp [annotRow_row]
      | succ j =>
          simp only [List.getD_cons_succ]
          exact ih _ _ _ _ j (by simpa using hi)

lemma annotateLoop_tie (ks : List TieKey) :
    ∀ (l : List RRow) (pre : List TieKey) (idx : ℕ) (prev : Option RankedRow),
      ks = pre ++ l.map key_for →
      ∀ i, i < l.length →
        ((annotateLoop ks (gmOf (dupFirstsP ks pre)) (dupFirstsP ks pre).length idx prev
            l).getD i default).tieHighlight
          = decide (1 < ks.count (key_for (l.getD i default)))
        ∧ ((annotateLoop ks (gmOf (dupFirstsP ks pre)) (dupFirstsP ks pre).length idx prev
            l).getD i default).tieGroup
          = (if 1 < ks.count (key_for (l.getD i default)) then
              lookupKey (gmOf (dupFirsts ks)) (key_for (l.getD i default)) else none) := by
  intro l
  induction l with
  | nil => intro pre idx prev hks i hi; exact absurd hi (by simp)
  | cons r rest ih =>
      intro pre idx prev hks i hi
      have hks' : ks = (pre ++ [key_for r]) ++ rest.map key_for := by
        rw [hks]
        simp
      rw [annotateLoop_cons]
      cases i with
      | zero =>
          simp only [List.getD_cons_zero]
          constructor
          · rfl
          · show (if 1 < ks.count (key_for r) then
                lookupKey (gmStep ks (gmOf (dupFirstsP ks pre)) (dupFirstsP ks pre).length
                  (key_for r)).1 (key_for r) else none) = _
            by_cases hc : 1 < ks.count (key_for r)
            · rw [if_pos hc, if_pos hc,
                show (gmStep ks (gmOf (dupFirstsP ks pre)) (dupFirstsP ks pre).length
                  (key_for r)).1 = gmOf (dupFirstsP ks (pre ++ [key_for r])) from
                    congrArg Prod.fst (gmStep_inv ks pre (key_for r))]
              have hmem : key_for r ∈ dupFirstsP ks (pre ++ [key_for r]) :=
                mem_dupFirstsP.mpr ⟨by simp, hc⟩
              have hdecomp : dupFirsts ks =
                  dupFirstsP ks (pre ++ [key_for r]) ++
                    (fdedupAux (pre ++ [key_for r]) (rest.map key_for)).filter
                      (fun k => 1 < ks.count k) := by
                refine (congrArg (dupFirstsP ks) hks').trans ?_
                exact dupFirstsP_append ks (pre ++ [key_for r]) (rest.map key_for)
              rw [hdecomp, lookupKey_gmOf_append_left _ _ _ hmem]
            · rw [if_neg hc, if_neg hc]
      | succ j =>
          simp only [List.getD_cons_succ]
          rw [gmStep_inv ks pre (key_for r)]
          exact ih (pre ++ [key_for r]) (idx + 1) (some _) hks' j (by simpa using hi)

/-- C3 counterexample: Cara and Bea share the multiply-occurring
tie-key, hence the same tie-group identifier and highlight, yet they
receive different rank numbers (1 and 3) because Abe's raw total sorts
strictly between their raw totals — tied-keyed entrants do not all
receive the same rank number. -/
theorem tie_group_shared_rank_counterexample :
    rank_rows C3rows = .ok C3out ∧
    key_for (C3out.getD 0 default).row = key_for (C3out.getD 2 default).row ∧
    (C3out.getD 0 default).tieGroup = some 1 ∧
    (C3out.getD 2 default).tieGroup = some 1 ∧
    (C3out.getD 0 default).tieHighlight = true ∧
    (C3out.getD 2 default).tieHighlight = true ∧
    (C3out.getD 0 default).rank = 1 ∧
    (C3out.getD 2 default).rank = 3 := by
  refine ⟨by decide, by decide, by decide, by decide, by decide, by decide, by decide,
    by decide⟩

/-- C3 amended: tie metadata is a function of the row's tie-key alone —
a key occurring more than once in the sorted sequence gets highlight
`true` and the group identifier stored for that key in the map built in
order of first occurrence starting at 1 (position among first
occurrences of duplicated keys, plus one); a uniquely occurring key
gets a `none` identifier and a `false` highlight; equal-key entrants
share group and highlight wherever they sit; rows tying on all raw
numeric levels appear in ascending alphabetical name order; a row whose
key equals the immediately preceding row's inherits its rank (equal
keys need not be adjacent, and non-adjacent equal keys can get
different ranks, as the counterexample shows); the name never enters
the tie-key. -/
theorem tie_group_annotation_characterization (l : List RRow) (out : List RankedRow)
    (hl : ∀ r ∈ l, NameOk r) (h : rank_rows l = .ok out) :
    ∃ s, sortRanked l = .ok s ∧ s = sortP l ∧
      (∀ i, i < out.length →
        ((out.getD i default).tieHighlight
            = decide (1 < (s.map key_for).count (keyAt out i))
          ∧ (1 < (s.map key_for).count (keyAt out i) →
              (out.getD i default).tieGroup =
                lookupKey (gmOf (dupFirsts (s.map key_for))) (keyAt out i))
          ∧ (¬ 1 < (s.map key_for).count (keyAt out i) →
              (out.getD i default).tieGroup = none)
          ∧ (keyAt out i ∈ dupFirsts (s.map key_for) ↔
              1 < (s.map key_for).count (keyAt out i))))
      ∧ (∀ k, k ∈ dupFirsts (s.map key_for) →
          lookupKey (gmOf (dupFirsts (s.map key_for))) k =
            some (posIn (dupFirsts (s.map key_for)) k + 1))
      ∧ (∀ i j, i < out.length → j < out.length → keyAt out i = keyAt out j →
          (out.getD i default).tieGroup = (out.getD j default).tieGroup
            ∧ (out.getD i default).tieHighlight = (out.getD j default).tieHighlight)
      ∧ List.Pairwise (fun a b => a.rankTotal = b.rankTotal → a.rankSpend = b.rankSpend →
          cbEq a.countback b.countback →
            strLt (pureNameOf b) (pureNameOf a) = false) s
      ∧ (∀ i, i + 1 < out.length → keyAt out (i + 1) = keyAt out i →
          rnkAt out (i + 1) = rnkAt out i)
      ∧ (∀ a b : RRow, a.rankTotal = b.rankTotal → a.rankSpend = b.rankSpend →
          a.countback = b.countback → key_for a = key_for b) := by
  obtain ⟨s, hs, hout⟩ := rank_rows_ok_elim h
  have hsp : s = sortP l := by
    have h2 := sortRanked_ok hl
    rw [hs] at h2
    exact Except.ok.inj h2
  have hlen : out.length = s.length := by
    rw [hout]
    exact annotateLoop_length _ _ _ _ _ _
  have hrow : ∀ i, i < out.length → (out.getD i default).row = s.getD i default := by
    intro i hi
    rw [hout]
    exact annotateLoop_getD_row _ _ _ _ _ _ i (by omega)
  have hkey : ∀ i, i < out.length → keyAt out i = key_for (s.getD i default) := by
    intro i hi
    show key_for (out.getD i default).row = _
    rw [hrow i hi]
  have htie : ∀ i, i < out.length →
      (out.getD i default).tieHighlight
          = decide (1 < (s.map key_for).count (keyAt out i))
        ∧ (out.getD i default).tieGroup
          = (if 1 < (s.map key_for).count (keyAt out i) then
              lookupKey (gmOf (dupFirsts (s.map key_for))) (keyAt out i) else none) := by
    intro i hi
    have hmain := annotateLoop_tie (s.map key_for) s [] 0 none rfl i (by omega)
    rw [hkey i hi, hout]
    exact hmain
  refine ⟨s, hs, hsp, ?_, ?_, ?_, ?_, ?_, ?_⟩
  · intro i hi
    obtain ⟨hh, hg⟩ := htie i hi
    refine ⟨hh, ?_, ?_, ?_⟩
    · intro hc
      rw [hg, if_pos hc]
    · intro hc
      rw [hg, if_neg hc]
    · rw [show dupFirsts (s.map key_for) = dupFirstsP (s.map key_for) (s.map key_for)
        from rfl, mem_dupFirstsP]
      constructor
      · exact fun hx => hx.2
      · intro hc
        refine ⟨?_, hc⟩
        rw [hkey i hi]
        exact List.mem_map_of_mem _ (getD_mem_of_lt _ _ _ (by omega))
  · intro k hk
    exact lookupKey_gmOf_mem _ k hk
  · intro i j hi hj hij
    obtain ⟨hhi, hgi⟩ := htie i hi
    obtain ⟨hhj, hgj⟩ := htie j hj
    rw [hgi, hgj, hhi, hhj, hij]
    exact ⟨rfl, rfl⟩
  · rw [hsp]
    refine List.Pairwise.imp ?_
      (@pairwise_sortBy RRow (fun a b => pureCmp a b = -1) (fun a b => ¬ rowLt b a)
        ?_ ?_ ?_ l)
    · intro a b hab ht hsd hcb
      cases hstr : strLt (pureNameOf b) (pureNameOf a)
      · rfl
      · exact absurd (Or.inr ⟨ht.symm, Or.inr ⟨hsd.symm, Or.inr ⟨cbEq_symm hcb, hstr⟩⟩⟩) hab
    · intro a b hlt
      have hab : rowLt a b := (pureCmp_eq_neg_iff a b).mp (by simpa using hlt)
      exact fun hba => rowLt_asymm hab hba
    · intro a b hlt
      have : ¬ pureCmp a b = -1 := by simpa using hlt
      exact fun hab => this ((pureCmp_eq_neg_iff a b).mpr hab)
    · exact fun a b c h1 h2 => rowLe_trans h1 h2
  · intro i hi1 heq
    have hstep := annotateLoop_rank_step (s.map key_for) s [] 0 0 none i (by omega)
    rw [hout] at heq ⊢
    rw [hstep, if_pos heq]
  · intro a b h1 h2 h3
    unfold key_for
    rw [h1, h2, h3]

/-- C3 witness: on the three-way tie the shared key gets group 1 and
highlight for all its members, the unique key gets none/false. -/
theorem tie_group_annotation_characterization_witness :
    (tieRankOut.getD 0 default).tieGroup = some 1 ∧
    (tieRankOut.getD 1 default).tieGroup = some 1 ∧
    (tieRankOut.getD 3 default).tieGroup = none ∧
    (tieRankOut.getD 0 default).tieHighlight = true ∧
    (tieRankOut.getD 3 default).tieHighlight = false := by
  have hl : ∀ r ∈ tieRankRows, NameOk r := by
    intro r hr
    simp only [tieRankRows, List.mem_cons, List.not_mem_nil, or_false] at hr
    rcases hr with rfl | rfl | rfl | rfl
    · exact ⟨"C", rfl⟩
    · exact ⟨"A", rfl⟩
    · exact ⟨"B", rfl⟩
    · exact ⟨"D", rfl⟩
  obtain ⟨s, hs, hsp, htie, hid, hshare, halpha, hadj, hkeyf⟩ :=
    tie_group_annotation_characterization tieRankRows tieRankOut hl (by decide)
  have hs' : s = [wRow "A" 7 1 [], wRow "B" 7 1 [], wRow "C" 7 1 [], wRow "D" 5 1 []] := by
    have hconc : sortRanked tieRankRows =
        .ok [wRow "A" 7 1 [], wRow "B" 7 1 [], wRow "C" 7 1 [], wRow "D" 5 1 []] := by
      decide
    rw [hconc] at hs
    exact (Except.ok.inj hs).symm
  subst hs'
  refine ⟨?_, ?_, ?_, ?_, ?_⟩
  · exact ((htie 0 (by decide)).2.1 (by decide)).trans (by decide)
  · exact ((htie 1 (by decide)).2.1 (by decide)).trans (by decide)
  · exact (htie 3 (by decide)).2.2.1 (by decide)
  · exact (htie 0 (by decide)).1.trans (by decide)
  · exact (htie 3 (by decide)).1.trans (by decide)

end Leaderboard
